import Mathlib

/-!
Shallow embedding of the order-maintaining hash table in
src/src/linked-hashtbl.c (repository frobware/c-hacks), together with
proofs checking the natural-language specification against it.

Modelling conventions:
* Pointers and intrusive links are replaced by values: the circular
  doubly-linked `all_entries` list (threaded through every entry) is a
  Lean list whose index 0 is the node `all_entries.next` (the list head,
  where `list_add_before(&entry->list, &h->all_entries)` inserts) and
  whose last element is the node `all_entries.prev` (the list tail,
  which eviction removes).
* `unsigned int` hash values are naturals reduced modulo 2^32 at the
  point where `hash_fn` is called (the C conversion to `unsigned int`).
* `malloc` results are modelled by an explicit oracle: a list of
  booleans consumed one per allocation, `false` meaning NULL; an
  exhausted oracle means every further allocation succeeds.
* `double` appears only in `max_load_factor` handling; it is modelled
  by `Rat`.  The clamping comparisons against the exactly representable
  constants 0.0, 0.75 and 1.0 are exact in both models.  The resize
  threshold `(int)(capacity * max_load_factor + 0.5)` is computed with
  integer arithmetic equal to the exact rational floor (both operands
  are nonnegative there, so the C cast truncating toward zero is a
  floor).
* `key_free_fn`, `val_free_fn` and `free_fn` only release caller-owned
  memory and have no observable effect on the table; they are dropped.
* The evictor callback `LINKED_HASHTBL_EVICTOR_FN` receives the table
  pointer and the entry count; a Lean structure cannot store a function
  over itself, so the model keeps the entry-count argument, which is
  the only one the default policy and the bounded-cache policies read.
-/

namespace LinkedHashtbl

/-- One `struct l_hashtbl_entry`: key, value and the precomputed hash
of the key.  The intrusive `list` and `next` links are represented by
the entry's position in `all_entries` and in its bucket chain. -/
structure Entry (K V : Type) where
  key : K
  val : V
  hash : Nat
deriving DecidableEq, Repr

/-- The `unsigned int` value of `hash_fn(k)`. -/
def uhash (f : K → Nat) (k : K) : Nat := f k % 2 ^ 32

/-- Slot selection `(int)hashval & (h->table_size - 1)` from
`tbl_entry_ref`/`tbl_entry`.  For the power-of-two sizes the table
uses (at most 2^30) the C int bit-and agrees with the Nat bit-and of
the reduced hash. -/
def bucketIdx (hv sz : Nat) : Nat := hv &&& (sz - 1)

/-- `struct l_hashtbl`.  `table` is the bucket array: one chain per
slot, chain head first. -/
structure l_hashtbl (K V : Type) where
  all_entries : List (Entry K V)
  max_load_factor : Rat
  hash_fn : K → Nat
  equals_fn : K → K → Bool
  nentries : Nat
  table_size : Nat
  resize_threshold : Int
  auto_resize : Bool
  access_order : Bool
  evictor_fn : Nat → Bool
  table : List (List (Entry K V))

/-- Draw one allocation outcome from the oracle (`false` = NULL). -/
def allocPop : List Bool → Bool × List Bool
  | [] => (true, [])
  | b :: rest => (b, rest)

/-- The entry test from `find_entry`'s loop:
`entry->hash == hv && h->equals_fn(entry->key, k)`. -/
def matchesKey (eqf : K → K → Bool) (hv : Nat) (k : K) (e : Entry K V) : Bool :=
  e.hash == hv && eqf e.key k

/-- `tbl_entry`: the chain in the slot selected by `hv`. -/
def tbl_entry (h : l_hashtbl K V) (hv : Nat) : List (Entry K V) :=
  h.table.getD (bucketIdx hv h.table_size) []

/-- `find_entry`: scan the hashed slot's chain for the first entry
whose stored hash matches and whose key compares equal. -/
def find_entry (h : l_hashtbl K V) (hv : Nat) (k : K) : Option (Entry K V) :=
  (tbl_entry h hv).find? (matchesKey h.equals_fn hv k)

/-- `remove_eldest`, the default eviction policy: never evicts
(`return 0;`).  The unused table argument is dropped (see header
comment). -/
def remove_eldest : Nat → Bool := fun _ => false

/-- In-place update `entry->val = v` of the first entry matching `p`,
as seen by a list holding that entry.  (In C the entry is mutated
through a pointer; every list containing it sees the update.) -/
def setValP (p : Entry K V → Bool) (v : V) : List (Entry K V) → List (Entry K V)
  | [] => []
  | e :: rest => if p e then { e with val := v } :: rest else e :: setValP p v rest

/-- `remove_key`: unlink the first matching entry from its bucket
chain, decrement `nentries`, and unlink the same entry from
`all_entries` (`list_remove(&entry->list)`).  The traversal-list
unlink is rendered as erasing the first match, which is that same
entry whenever matches are unique (invariant `Wf` below). -/
def remove_key (h : l_hashtbl K V) (k : K) : Option (Entry K V) × l_hashtbl K V :=
  let hv := uhash h.hash_fn k
  let idx := bucketIdx hv h.table_size
  let chain := h.table.getD idx []
  match chain.find? (matchesKey h.equals_fn hv k) with
  | none => (none, h)
  | some entry =>
      (some entry,
        { h with
          table := h.table.set idx (chain.eraseP (matchesKey h.equals_fn hv k))
          nentries := h.nentries - 1
          all_entries := h.all_entries.eraseP (matchesKey h.equals_fn hv k) })

/-- `l_hashtbl_remove`: 0 if the key was found (entry freed), else 1. -/
def l_hashtbl_remove (h : l_hashtbl K V) (k : K) : Nat × l_hashtbl K V :=
  match remove_key h k with
  | (some _, h') => (0, h')
  | (none, h') => (1, h')

/-- `record_access`: in access-order mode move the entry to the head of
`all_entries`; in insertion-order mode do nothing.  The unlink of the
given entry is rendered with its own match predicate (exact under
`Wf`). -/
def record_access (h : l_hashtbl K V) (entry : Entry K V) : l_hashtbl K V :=
  if h.access_order then
    { h with all_entries :=
        entry :: h.all_entries.eraseP (matchesKey h.equals_fn entry.hash entry.key) }
  else h

/-- `l_hashtbl_lookup`: value of the matching entry (NULL -> `none`),
plus the table, reordered by `record_access` on a hit. -/
def l_hashtbl_lookup (h : l_hashtbl K V) (k : K) : Option V × l_hashtbl K V :=
  let hv := uhash h.hash_fn k
  match find_entry h hv k with
  | some entry => (some entry.val, record_access h entry)
  | none => (none, h)

/-- `LINKED_HASHTBL_MAX_TABLE_SIZE` (`1 << 30`). -/
def LINKED_HASHTBL_MAX_TABLE_SIZE : Int := 2 ^ 30

/-- `is_power_of_2`: `(x & (x - 1)) == 0`.  Only consulted for
`1 <= x < 2^30`, where the Nat bit-and agrees with the C int one. -/
def is_power_of_2 (x : Int) : Bool := (x.toNat &&& (x.toNat - 1)) == 0

/-- The loop of `roundup_to_next_power_of_2`:
`int n = 1; while (n < x) n <<= 1;`. -/
def roundup_loop (x : Int) (n : Nat) (hn : 0 < n) : Nat :=
  if h : (n : Int) < x then roundup_loop x (2 * n) (by omega) else n
termination_by (x - (n : Int)).toNat
decreasing_by
  omega

/-- `roundup_to_next_power_of_2`. -/
def roundup_to_next_power_of_2 (x : Int) : Int :=
  (roundup_loop x 1 (by omega) : Nat)

/-- The capacity-clamping block at the top of `l_hashtbl_resize`
(lines 395-401), factored into a named definition: values below 1
become 1, values at or above the maximum become the maximum, and
non-powers-of-two round up. -/
def resize_capacity (capacity : Int) : Int :=
  if capacity < 1 then 1
  else if capacity ≥ LINKED_HASHTBL_MAX_TABLE_SIZE then LINKED_HASHTBL_MAX_TABLE_SIZE
  else if !is_power_of_2 capacity then roundup_to_next_power_of_2 capacity
  else capacity

/-- `resize_threshold(capacity, max_load_factor)`:
`(int)(((double)capacity * max_load_factor) + 0.5)`, computed as the
exact rational floor of `capacity * mlf + 1/2` by integer
arithmetic (the operands are nonnegative at every call). -/
def resize_threshold (capacity : Int) (max_load_factor : Rat) : Int :=
  (2 * capacity * max_load_factor.num + (max_load_factor.den : Int)).fdiv
    (2 * (max_load_factor.den : Int))

/-- The entry-transfer loop of `l_hashtbl_resize`: walk `all_entries`
head to tail, pushing each entry onto the head of its slot's chain in
the fresh bucket array. -/
def transfer_all (entries : List (Entry K V)) (sz : Nat) : List (List (Entry K V)) :=
  entries.foldl
    (fun tbl e => tbl.set (bucketIdx e.hash sz) (e :: tbl.getD (bucketIdx e.hash sz) []))
    (List.replicate sz [])

/-- `l_hashtbl_resize`: clamp the request; no-op (success) unless the
clamped capacity exceeds the current one; fail leaving the table
untouched if the new bucket array cannot be allocated; otherwise
rebuild the bucket chains from the traversal list (which itself is not
touched) and store the new size and resize threshold. -/
def l_hashtbl_resize (h : l_hashtbl K V) (capacity : Int) (alloc : List Bool) :
    Nat × l_hashtbl K V × List Bool :=
  let cap := resize_capacity capacity
  if cap < (h.table_size : Int) ∨ cap = (h.table_size : Int) then (0, h, alloc)
  else
    let (ok, alloc') := allocPop alloc
    if !ok then (1, h, alloc')
    else
      let sz := cap.toNat
      (0,
        { h with
          table := transfer_all h.all_entries sz
          table_size := sz
          resize_threshold := resize_threshold cap h.max_load_factor },
        alloc')

/-- `l_hashtbl_insert`.  Existing key: replace the value in place (no
reordering, no eviction, no resize).  New key: allocate (failure
returns 1 with the table untouched), link at the head of the slot
chain and at the head of `all_entries`, bump the count, consult the
evictor (evicting the `all_entries` tail via `l_hashtbl_remove`), and
finally attempt the best-effort auto-resize. -/
def l_hashtbl_insert (h : l_hashtbl K V) (k : K) (v : V) (alloc : List Bool) :
    Nat × l_hashtbl K V × List Bool :=
  let hv := uhash h.hash_fn k
  match find_entry h hv k with
  | some _ =>
      let idx := bucketIdx hv h.table_size
      (0,
        { h with
          table := h.table.set idx
            (setValP (matchesKey h.equals_fn hv k) v (h.table.getD idx []))
          all_entries := setValP (matchesKey h.equals_fn hv k) v h.all_entries },
        alloc)
  | none =>
      let (ok, alloc1) := allocPop alloc
      if !ok then (1, h, alloc1)
      else
        let entry : Entry K V := { key := k, val := v, hash := hv }
        let idx := bucketIdx hv h.table_size
        let h1 :=
          { h with
            table := h.table.set idx (entry :: h.table.getD idx [])
            all_entries := entry :: h.all_entries
            nentries := h.nentries + 1 }
        let h2 :=
          if h1.evictor_fn h1.nentries then
            match h1.all_entries.getLast? with
            | some eldest => (l_hashtbl_remove h1 eldest.key).2
            | none => h1
          else h1
        if h2.auto_resize then
          if h2.resize_threshold ≤ (h2.nentries : Int) then
            let r := l_hashtbl_resize h2 (2 * (h2.table_size : Int)) alloc1
            (0, r.2.1, r.2.2)
          else (0, h2, alloc1)
        else (0, h2, alloc1)

/-- `l_hashtbl_clear`: release every entry walking `all_entries`
(decrementing `nentries` once per entry), zero the bucket array,
re-init the traversal list. -/
def l_hashtbl_clear (h : l_hashtbl K V) : l_hashtbl K V :=
  { h with
    all_entries := []
    nentries := h.nentries - h.all_entries.length
    table := List.replicate h.table_size [] }

/-- `l_hashtbl_count`. -/
def l_hashtbl_count (h : l_hashtbl K V) : Nat := h.nentries

/-- `l_hashtbl_capacity`. -/
def l_hashtbl_capacity (h : l_hashtbl K V) : Nat := h.table_size

/-- The `max_load_factor` clamping block of `l_hashtbl_create`
(lines 358-362): negative values become 0.75, values above 1.0 become
1.0, everything else is stored unchanged. -/
def clamp_load_factor (max_load_factor : Rat) : Rat :=
  if max_load_factor < mkRat 0 1 then mkRat 3 4
  else if mkRat 1 1 < max_load_factor then mkRat 1 1
  else max_load_factor

/-- `l_hashtbl_create`: allocate the table record (NULL propagates as
`none`), clamp the load factor, default a missing evictor to
`remove_eldest`, start with size 0, and grow to the requested capacity
via `l_hashtbl_resize` (whose failure frees the record and yields
NULL).  The NULL-defaults for `hash_fn`/`equals_fn` (pointer identity)
and the allocator have no generic counterpart, so those arguments are
required here. -/
def l_hashtbl_create (capacity : Int) (max_load_factor : Rat)
    (auto_resize access_order : Bool) (hash_fn : K → Nat) (equals_fn : K → K → Bool)
    (evictor_fn : Option (Nat → Bool)) (alloc : List Bool) :
    Option (l_hashtbl K V) × List Bool :=
  let (ok, a1) := allocPop alloc
  if !ok then (none, a1)
  else
    let h0 : l_hashtbl K V :=
      { all_entries := []
        max_load_factor := clamp_load_factor max_load_factor
        hash_fn := hash_fn
        equals_fn := equals_fn
        nentries := 0
        table_size := 0
        resize_threshold := 0
        auto_resize := auto_resize
        access_order := access_order
        evictor_fn := evictor_fn.getD remove_eldest
        table := [] }
    match l_hashtbl_resize h0 capacity a1 with
    | (0, h1, a2) => (some h1, a2)
    | (_, _, a2) => (none, a2)

/-- The loop of `l_hashtbl_apply`: count the visit, stop (returning
the count so far, trigger included) when the callback returns anything
other than 1, else continue. -/
def apply_loop (f : K → V → Int) : List (Entry K V) → Nat → Nat
  | [], nentries => nentries
  | e :: rest, nentries =>
      if f e.key e.val ≠ 1 then nentries + 1 else apply_loop f rest (nentries + 1)

/-- `l_hashtbl_apply`: visit `all_entries` head to tail.  The
`client_data` pointer is folded into the callback. -/
def l_hashtbl_apply (h : l_hashtbl K V) (f : K → V → Int) : Nat :=
  apply_loop f h.all_entries 0

/-- `struct l_hashtbl_iter`.  The C iterator stores the current node
`pos`, the sentinel `end` and a direction, stepping through
`next`/`prev` links; the model materializes the remaining walk in the
direction of travel, so `pos` here is the list of nodes still to be
visited. -/
structure l_hashtbl_iter (K V : Type) where
  key : Option K
  val : Option V
  direction : Int
  pos : List (Entry K V)

/-- `l_hashtbl_iter_init`: direction >= 1 starts at `all_entries.next`
(the list head) walking `next` links; any other direction starts at
`all_entries.prev` (the tail) walking `prev` links, i.e. the reversed
list.  No key/value is exposed yet. -/
def l_hashtbl_iter_init (h : l_hashtbl K V) (direction : Int) : l_hashtbl_iter K V :=
  { key := none
    val := none
    direction := direction
    pos := if direction ≥ 1 then h.all_entries else h.all_entries.reverse }

/-- `l_hashtbl_iter_next`: 0 once the sentinel is reached, else expose
the current entry's key/value and advance. -/
def l_hashtbl_iter_next (iter : l_hashtbl_iter K V) : Nat × l_hashtbl_iter K V :=
  match iter.pos with
  | [] => (0, iter)
  | e :: rest => (1, { iter with pos := rest, key := some e.key, val := some e.val })

end LinkedHashtbl

namespace LinkedHashtbl

/-! ### Arithmetic facts about the capacity clamp -/

theorem two_pow_and_pred (k : Nat) : 2 ^ k &&& (2 ^ k - 1) = 0 := by
  refine Nat.eq_of_testBit_eq fun i => ?_
  rw [Nat.testBit_and, Nat.testBit_two_pow, Nat.testBit_two_pow_sub_one, Nat.zero_testBit]
  by_cases h : k = i <;> simp [h]

theorem pow2_of_and_pred_eq_zero :
    ∀ m : Nat, 0 < m → m &&& (m - 1) = 0 → ∃ k, m = 2 ^ k := by
  intro m
  induction m using Nat.strong_induction_on with
  | _ m ih =>
    intro hm hand
    rcases Nat.even_or_odd m with he | ho
    · obtain ⟨r, hr⟩ := he
      have hm2 : 0 < m / 2 := by omega
      have hhalf : (m - 1) / 2 = m / 2 - 1 := by omega
      have hzz : m / 2 &&& (m / 2 - 1) = 0 := by
        refine Nat.eq_of_testBit_eq fun i => ?_
        have h1 : (m &&& (m - 1)).testBit (i + 1) = false := by
          rw [hand]; exact Nat.zero_testBit _
        rw [Nat.testBit_and, Nat.testBit_add_one, Nat.testBit_add_one, hhalf] at h1
        rw [Nat.testBit_and, Nat.zero_testBit]
        exact h1
      obtain ⟨k, hk⟩ := ih (m / 2) (by omega) hm2 hzz
      refine ⟨k + 1, ?_⟩
      have : m = 2 * (m / 2) := by omega
      rw [this, hk, pow_succ]
      ring
    · have hmo : m % 2 = 1 := Nat.odd_iff.mp ho
      by_cases h1 : m = 1
      · exact ⟨0, by simp [h1]⟩
      · exfalso
        have hhalf : (m - 1) / 2 = m / 2 := by omega
        have hbits : ∀ i, (m / 2).testBit i = false := by
          intro i
          have hz : (m &&& (m - 1)).testBit (i + 1) = false := by
            rw [hand]; exact Nat.zero_testBit _
          rw [Nat.testBit_and, Nat.testBit_add_one, Nat.testBit_add_one, hhalf] at hz
          cases hh : (m / 2).testBit i
          · rfl
          · rw [hh] at hz; simp at hz
        have : m / 2 = 0 :=
          Nat.eq_of_testBit_eq fun i => by rw [hbits i, Nat.zero_testBit]
        omega

theorem is_power_of_2_iff (x : Int) (hx : 1 ≤ x) :
    is_power_of_2 x = true ↔ ∃ k : Nat, x = 2 ^ k := by
  unfold is_power_of_2
  rw [beq_iff_eq]
  constructor
  · intro h
    obtain ⟨k, hk⟩ := pow2_of_and_pred_eq_zero x.toNat (by omega) h
    refine ⟨k, ?_⟩
    have : ((2 : Nat) ^ k : Int) = 2 ^ k := by push_cast; ring
    omega
  · rintro ⟨k, hk⟩
    have hk' : x.toNat = 2 ^ k := by
      have : ((2 : Nat) ^ k : Int) = 2 ^ k := by push_cast; ring
      omega
    rw [hk']
    exact two_pow_and_pred k

theorem roundup_loop_spec :
    ∀ (x : Int) (n : Nat) (hn : 0 < n),
      (∃ t : Nat, roundup_loop x n hn = n * 2 ^ t) ∧
      (¬ (n : Int) < x → roundup_loop x n hn = n) ∧
      ((n : Int) < x →
        x ≤ (roundup_loop x n hn : Int) ∧ (roundup_loop x n hn : Int) < 2 * x) := by
  intro x
  refine roundup_loop.induct x (fun n hn =>
      (∃ t : Nat, roundup_loop x n hn = n * 2 ^ t) ∧
      (¬ (n : Int) < x → roundup_loop x n hn = n) ∧
      ((n : Int) < x →
        x ≤ (roundup_loop x n hn : Int) ∧ (roundup_loop x n hn : Int) < 2 * x)) ?_ ?_
  · intro n hn hlt ih
    rw [roundup_loop, dif_pos hlt]
    obtain ⟨⟨t, ht⟩, hstop, hgo⟩ := ih
    refine ⟨⟨t + 1, by rw [ht]; ring⟩, fun hc => absurd hlt hc, fun _ => ?_⟩
    by_cases h2 : ((2 * n : Nat) : Int) < x
    · exact hgo h2
    · rw [hstop h2]
      push_cast at h2 ⊢
      omega
  · intro n hn hlt
    rw [roundup_loop, dif_neg hlt]
    exact ⟨⟨0, by ring⟩, fun _ => rfl, fun hc => absurd hc hlt⟩

theorem roundup_spec (x : Int) :
    (∃ t : Nat, roundup_to_next_power_of_2 x = 2 ^ t) ∧
    (x ≤ 1 → roundup_to_next_power_of_2 x = 1) ∧
    (1 < x → x ≤ roundup_to_next_power_of_2 x ∧ roundup_to_next_power_of_2 x < 2 * x) := by
  obtain ⟨⟨t, ht⟩, hstop, hgo⟩ := roundup_loop_spec x 1 (by omega)
  unfold roundup_to_next_power_of_2
  refine ⟨⟨t, by rw [ht]; push_cast; ring⟩, fun hle => ?_, fun hlt => ?_⟩
  · rw [hstop (by omega)]; rfl
  · have := hgo (by omega)
    omega

end LinkedHashtbl

namespace LinkedHashtbl

theorem resize_capacity_spec (c : Int) :
    (∃ k : Nat, k ≤ 30 ∧ resize_capacity c = 2 ^ k) ∧
    (c < 1 → resize_capacity c = 1) ∧
    (LINKED_HASHTBL_MAX_TABLE_SIZE ≤ c → resize_capacity c = LINKED_HASHTBL_MAX_TABLE_SIZE) ∧
    (1 ≤ c → c ≤ LINKED_HASHTBL_MAX_TABLE_SIZE →
      c ≤ resize_capacity c ∧ resize_capacity c < 2 * c) := by
  have hmax : LINKED_HASHTBL_MAX_TABLE_SIZE = 2 ^ 30 := rfl
  unfold resize_capacity
  by_cases h1 : c < 1
  · rw [if_pos h1]
    exact ⟨⟨0, by omega, rfl⟩, fun _ => rfl, by omega, by omega⟩
  · rw [if_neg h1]
    by_cases h2 : c ≥ LINKED_HASHTBL_MAX_TABLE_SIZE
    · rw [if_pos h2]
      refine ⟨⟨30, by omega, rfl⟩, by omega, fun _ => rfl, fun _ hle => ?_⟩
      have : c = 2 ^ 30 := by omega
      rw [hmax]
      omega
    · rw [if_neg h2]
      by_cases h3 : is_power_of_2 c
      · rw [h3]
        simp only [Bool.not_true, Bool.false_eq_true, if_false]
        obtain ⟨k, hk⟩ := (is_power_of_2_iff c (by omega)).mp h3
        have hkle : k ≤ 30 := by
          by_contra hgt
          have : (2 : Int) ^ 31 ≤ 2 ^ k := by
            apply pow_le_pow_right₀ (by omega)
            omega
          have h31 : (2 : Int) ^ 31 = 2 * 2 ^ 30 := by norm_num
          omega
        exact ⟨⟨k, hkle, hk⟩, by omega, by omega, fun _ _ => ⟨le_refl c, by omega⟩⟩
      · rw [Bool.not_eq_true] at h3
        rw [h3]
        simp only [Bool.not_false, if_true]
        have hc2 : 1 < c := by
          rcases lt_or_eq_of_le (by omega : 1 ≤ c) with h | h
          · exact h
          · exfalso
            rw [← h] at h3
            simp [is_power_of_2] at h3
        obtain ⟨⟨t, ht⟩, _, hrange⟩ := roundup_spec c
        obtain ⟨hge, hlt⟩ := hrange hc2
        have htle : t ≤ 30 := by
          by_contra hgt
          have h1t : (2 : Int) ^ 31 ≤ 2 ^ t := by
            apply pow_le_pow_right₀ (by omega)
            omega
          have h31 : (2 : Int) ^ 31 = 2 * 2 ^ 30 := by norm_num
          omega
        exact ⟨⟨t, htle, ht⟩, by omega, by omega, fun _ _ => ⟨hge, hlt⟩⟩

theorem resize_capacity_pos (c : Int) : 1 ≤ resize_capacity c := by
  obtain ⟨⟨k, _, hk⟩, _, _, _⟩ := resize_capacity_spec c
  have hp : (0 : Int) < 2 ^ k := by positivity
  omega

/-- On an all-success allocation oracle, `l_hashtbl_create` returns the
empty table at the clamped capacity. -/
theorem create_empty (capacity : Int) (mlf : Rat) (ar ao : Bool)
    (hf : K → Nat) (ef : K → K → Bool) (ev : Option (Nat → Bool)) :
    l_hashtbl_create (K := K) (V := V) capacity mlf ar ao hf ef ev [] =
      (some
        { all_entries := []
          max_load_factor := clamp_load_factor mlf
          hash_fn := hf
          equals_fn := ef
          nentries := 0
          table_size := (resize_capacity capacity).toNat
          resize_threshold :=
            resize_threshold (resize_capacity capacity) (clamp_load_factor mlf)
          auto_resize := ar
          access_order := ao
          evictor_fn := ev.getD remove_eldest
          table := List.replicate (resize_capacity capacity).toNat [] }, []) := by
  have hpos := resize_capacity_pos capacity
  simp only [l_hashtbl_create, allocPop, l_hashtbl_resize]
  rw [if_neg (show ¬(resize_capacity capacity < ((0 : Nat) : Int) ∨
      resize_capacity capacity = ((0 : Nat) : Int)) by push_cast; omega)]
  rfl

/-- C6 (confirmed): for every requested capacity at create time, the
resulting table capacity is 1 when the request is below 1, the maximum
(2^30) when the request is at or above it, and otherwise the least
power of two that is at least the request (the request itself when it
is already a power of two); the result is always a power of two
between 1 and 2^30. -/
theorem claim_C6_create_capacity_clamped (capacity : Int) (mlf : Rat) (ar ao : Bool)
    (hf : K → Nat) (ef : K → K → Bool) (ev : Option (Nat → Bool)) :
    ((l_hashtbl_create (K := K) (V := V) capacity mlf ar ao hf ef ev []).1.map
        l_hashtbl_capacity) = some (resize_capacity capacity).toNat ∧
    (∃ k : Nat, k ≤ 30 ∧ resize_capacity capacity = 2 ^ k) ∧
    (capacity < 1 → resize_capacity capacity = 1) ∧
    (LINKED_HASHTBL_MAX_TABLE_SIZE ≤ capacity →
      resize_capacity capacity = LINKED_HASHTBL_MAX_TABLE_SIZE) ∧
    (1 ≤ capacity → capacity ≤ LINKED_HASHTBL_MAX_TABLE_SIZE →
      capacity ≤ resize_capacity capacity ∧ resize_capacity capacity < 2 * capacity) := by
  obtain ⟨hpow, hlow, hhigh, hrange⟩ := resize_capacity_spec capacity
  refine ⟨?_, hpow, hlow, hhigh, hrange⟩
  rw [create_empty]
  rfl

/-- Witness for C6 at the concrete request 5 (not a power of two):
the stored capacity is 8, the next power of two. -/
theorem claim_C6_witness :
    ((l_hashtbl_create (K := Nat) (V := Nat) 5 (mkRat 3 4) false false (fun n => n)
        (fun a b => a == b) none []).1.map l_hashtbl_capacity) =
      some (resize_capacity 5).toNat ∧
    (5 : Int) ≤ resize_capacity 5 ∧ resize_capacity 5 < 2 * 5 := by
  have h := claim_C6_create_capacity_clamped (K := Nat) (V := Nat) 5 (mkRat 3 4)
    false false (fun n => n) (fun a b => a == b) none
  exact ⟨h.1, h.2.2.2.2 (by decide) (by decide)⟩

/-- C7 counterexample: the argument 0 lies outside the interval (0,1]
but is neither negative nor above 1, so `l_hashtbl_create` stores it
unchanged — the stored max load factor 0 is not in (0,1]. -/
theorem claim_C7_cex :
    clamp_load_factor (mkRat 0 1) = mkRat 0 1 ∧
    ¬ (0 < mkRat 0 1) ∧
    ((l_hashtbl_create (K := Nat) (V := Nat) 4 (mkRat 0 1) false false (fun n => n)
        (fun a b => a == b) none []).1.map l_hashtbl.max_load_factor) =
      some (mkRat 0 1) := by
  refine ⟨by decide, by decide, ?_⟩
  rw [create_empty]
  rfl

/-- C7 (amended): `l_hashtbl_create` stores `max_load_factor` clamped
as follows — 0.75 for negative arguments, 1.0 for arguments above 1.0,
and the argument itself (including 0) for arguments in [0,1]; the
stored value therefore always lies in [0,1], but an argument of 0 is
stored as 0, which is outside (0,1]. -/
theorem claim_C7_load_factor_clamped (m : Rat) :
    (m < 0 → clamp_load_factor m = mkRat 3 4) ∧
    (1 < m → clamp_load_factor m = 1) ∧
    (0 ≤ m → m ≤ 1 → clamp_load_factor m = m) ∧
    (0 ≤ clamp_load_factor m ∧ clamp_load_factor m ≤ 1) ∧
    (∀ (capacity : Int) (ar ao : Bool) (hf : K → Nat) (ef : K → K → Bool)
        (ev : Option (Nat → Bool)),
      ((l_hashtbl_create (K := K) (V := V) capacity m ar ao hf ef ev []).1.map
          l_hashtbl.max_load_factor) = some (clamp_load_factor m)) := by
  have h01 : mkRat 0 1 = (0 : Rat) := by decide
  have h11 : mkRat 1 1 = (1 : Rat) := by decide
  have hq : (0 : Rat) < mkRat 3 4 ∧ mkRat 3 4 ≤ 1 := by decide
  unfold clamp_load_factor
  rw [h01, h11]
  refine ⟨?_, ?_, ?_, ?_, ?_⟩
  · intro hm
    rw [if_pos hm]
  · intro hm
    rw [if_neg (by linarith), if_pos hm]
  · intro h0 h1
    rw [if_neg (by linarith), if_neg (by linarith)]
  · split_ifs with ha hb
    · exact ⟨le_of_lt hq.1, hq.2⟩
    · exact ⟨by linarith, le_refl 1⟩
    · exact ⟨by linarith, by linarith⟩
  · intro capacity ar ao hf ef ev
    rw [create_empty]
    unfold clamp_load_factor
    rw [h01, h11]
    rfl

/-- Witness for C7 at the concrete argument 3/2 (above 1): the stored
value is clamped to 1. -/
theorem claim_C7_witness :
    (1 : Rat) < mkRat 3 2 ∧ clamp_load_factor (mkRat 3 2) = 1 :=
  ⟨by decide, (claim_C7_load_factor_clamped (K := Nat) (V := Nat) (mkRat 3 2)).2.1 (by decide)⟩

end LinkedHashtbl

namespace LinkedHashtbl

/-! ### Concrete tables used as witnesses and counterexamples -/

/-- An empty table of capacity 4 over direct Nat keys, as produced by
`l_hashtbl_create(4, 0.75, 0, 0, ...)`. -/
def tbl0 : l_hashtbl Nat Nat :=
  { all_entries := []
    max_load_factor := mkRat 3 4
    hash_fn := fun n => n
    equals_fn := fun a b => a == b
    nentries := 0
    table_size := 4
    resize_threshold := 3
    auto_resize := false
    access_order := false
    evictor_fn := remove_eldest
    table := [[], [], [], []] }

/-- `tbl0` after `insert(1, 10)` then `insert(2, 20)`: key 2 is the
most recently inserted, so its entry sits at the head of
`all_entries`. -/
def tblTwo : l_hashtbl Nat Nat :=
  { all_entries := [⟨2, 20, 2⟩, ⟨1, 10, 1⟩]
    max_load_factor := mkRat 3 4
    hash_fn := fun n => n
    equals_fn := fun a b => a == b
    nentries := 2
    table_size := 4
    resize_threshold := 3
    auto_resize := false
    access_order := false
    evictor_fn := remove_eldest
    table := [[], [⟨1, 10, 1⟩], [⟨2, 20, 2⟩], []] }

/-- Sanity check: the observable fields of `tblTwo` are exactly those
of the table built by `l_hashtbl_create` followed by the two inserts. -/
theorem tblTwo_reachable :
    ((l_hashtbl_create (K := Nat) (V := Nat) 4 (mkRat 3 4) false false (fun n => n)
        (fun a b => a == b) none []).1.map (fun h0 =>
          (((l_hashtbl_insert (l_hashtbl_insert h0 1 10 []).2.1 2 20 []).2.1.all_entries),
           ((l_hashtbl_insert (l_hashtbl_insert h0 1 10 []).2.1 2 20 []).2.1.table),
           ((l_hashtbl_insert (l_hashtbl_insert h0 1 10 []).2.1 2 20 []).2.1.nentries),
           ((l_hashtbl_insert (l_hashtbl_insert h0 1 10 []).2.1 2 20 []).2.1.table_size),
           ((l_hashtbl_insert (l_hashtbl_insert h0 1 10 []).2.1 2 20 []).2.1.resize_threshold)))) =
      some (tblTwo.all_entries, tblTwo.table, tblTwo.nentries, tblTwo.table_size,
        tblTwo.resize_threshold) := by
  decide

/-! ### C5: allocation failure leaves the table untouched -/

/-- C5 (confirmed): when the allocator returns NULL for the new entry
of a fresh-key `l_hashtbl_insert`, or for the new bucket array of a
growing `l_hashtbl_resize`, the call returns the failure code 1 and
the table is returned exactly as it was. -/
theorem claim_C5_alloc_failure_unchanged (h : l_hashtbl K V) (k : K) (v : V) (n : Int)
    (rest : List Bool)
    (hnew : find_entry h (uhash h.hash_fn k) k = none)
    (hgrow : (h.table_size : Int) < resize_capacity n) :
    l_hashtbl_insert h k v (false :: rest) = (1, h, rest) ∧
    l_hashtbl_resize h n (false :: rest) = (1, h, rest) := by
  constructor
  · simp only [l_hashtbl_insert, hnew]
    rfl
  · simp only [l_hashtbl_resize]
    rw [if_neg (by omega)]
    rfl

/-- Witness for C5: inserting the absent key 1 into the empty `tbl0`
and growing `tbl0` to capacity 8, both under a failing allocator. -/
theorem claim_C5_witness :
    find_entry tbl0 (uhash tbl0.hash_fn 1) 1 = none ∧
    (tbl0.table_size : Int) < resize_capacity 8 ∧
    l_hashtbl_insert tbl0 1 10 [false] = (1, tbl0, []) ∧
    l_hashtbl_resize tbl0 8 [false] = (1, tbl0, []) := by
  have h := claim_C5_alloc_failure_unchanged tbl0 1 10 8 [] (by decide) (by decide)
  exact ⟨by decide, by decide, h.1, h.2⟩

/-! ### C4: early termination of apply -/

theorem apply_loop_spec (f : K → V → Int) :
    ∀ (l : List (Entry K V)) (acc : Nat),
      apply_loop f l acc =
        acc + ((l.findIdx? (fun e => f e.key e.val != 1)).map (· + 1)).getD l.length := by
  intro l
  induction l with
  | nil => intro acc; simp [apply_loop]
  | cons e rest ih =>
    intro acc
    by_cases hc : f e.key e.val ≠ 1
    · have hb : (f e.key e.val != 1) = true := by simp [bne_iff_ne, hc]
      simp [apply_loop, if_pos hc, List.findIdx?_cons, hb]
    · rw [Classical.not_not] at hc
      have hb : (f e.key e.val != 1) = false := by simp [bne_iff_ne, hc]
      rw [apply_loop, if_neg (by simp [hc]), ih (acc + 1), List.findIdx?_cons]
      simp only [hb, Bool.false_eq_true, if_false, List.findIdx?_succ]
      cases hidx : rest.findIdx? (fun e => f e.key e.val != 1) with
      | none => simp [hidx, List.length_cons]; omega
      | some i => simp [hidx]; omega

/-- C4 counterexample: a callback that always returns 2 never returns
a false/zero signal, yet `l_hashtbl_apply` on the two-entry table
stops after the very first entry (2 is not the continue signal 1). -/
theorem claim_C4_cex :
    l_hashtbl_apply tblTwo (fun _ _ => 2) = 1 ∧
    tblTwo.all_entries.length = 2 ∧
    (∀ e ∈ tblTwo.all_entries, (fun _ _ => (2 : Int)) e.key e.val ≠ 0) := by
  decide

/-- C4 (amended): `l_hashtbl_apply` visits `all_entries` in traversal
order and stops exactly at the first entry for which the callback
returns a value other than 1 (so a false/zero return does stop it, but
so does any other non-1 value); the result counts the visited entries
including the one that triggered the stop, and is the full entry count
when every callback call returns 1. -/
theorem claim_C4_apply_early_stop (h : l_hashtbl K V) (f : K → V → Int) :
    l_hashtbl_apply h f =
      ((h.all_entries.findIdx? (fun e => f e.key e.val != 1)).map (· + 1)).getD
        h.all_entries.length := by
  have := apply_loop_spec f h.all_entries 0
  simpa [l_hashtbl_apply] using this

/-! ### C3: iterator initial position and direction -/

/-- C3 counterexample: on the concrete two-entry table (key 1 inserted
before key 2), a forward iterator (direction 1) is positioned at the
traversal-list head, whose entry is key 2 — the newest — while the
oldest entry, key 1, sits at the tail; the first
`l_hashtbl_iter_next` exposes key 2, not the oldest key. -/
theorem claim_C3_cex :
    (l_hashtbl_iter_init tblTwo 1).pos.map Entry.key = [2, 1] ∧
    tblTwo.all_entries.getLast?.map Entry.key = some 1 ∧
    (l_hashtbl_iter_next (l_hashtbl_iter_init tblTwo 1)).1 = 1 ∧
    (l_hashtbl_iter_next (l_hashtbl_iter_init tblTwo 1)).2.key = some 2 := by
  decide

/-- C3 (amended): for every non-empty table, a forward iterator
(direction 1) starts at the head of the traversal list — which is the
most recently inserted end, so the visit order is newest-to-oldest in
insertion-order mode — while a reverse iterator starts at the tail and
visits oldest-to-newest; each `l_hashtbl_iter_next` exposes the
current entry and advances, returning 0 exactly at exhaustion. -/
theorem claim_C3_iter_forward_from_head (h : l_hashtbl K V) (hne : h.all_entries ≠ []) :
    (l_hashtbl_iter_init h 1).pos = h.all_entries ∧
    (l_hashtbl_iter_init h (-1)).pos = h.all_entries.reverse ∧
    (l_hashtbl_iter_next (l_hashtbl_iter_init h 1)).1 = 1 ∧
    (l_hashtbl_iter_next (l_hashtbl_iter_init h 1)).2.key =
      h.all_entries.head?.map Entry.key ∧
    (∀ it : l_hashtbl_iter K V, ∀ e rest, it.pos = e :: rest →
      l_hashtbl_iter_next it =
        (1, { it with pos := rest, key := some e.key, val := some e.val })) ∧
    (∀ it : l_hashtbl_iter K V, it.pos = [] → l_hashtbl_iter_next it = (0, it)) := by
  refine ⟨rfl, by simp [l_hashtbl_iter_init], ?_, ?_, ?_, ?_⟩
  · cases hl : h.all_entries with
    | nil => exact absurd hl hne
    | cons e rest => simp [l_hashtbl_iter_init, l_hashtbl_iter_next, hl]
  · cases hl : h.all_entries with
    | nil => exact absurd hl hne
    | cons e rest => simp [l_hashtbl_iter_init, l_hashtbl_iter_next, hl]
  · intro it e rest hpos
    simp [l_hashtbl_iter_next, hpos]
  · intro it hpos
    simp [l_hashtbl_iter_next, hpos]

/-- Witness for C3 (amended) at the non-empty table `tblTwo`. -/
theorem claim_C3_witness :
    tblTwo.all_entries ≠ [] ∧ (l_hashtbl_iter_init tblTwo 1).pos = tblTwo.all_entries :=
  ⟨by decide, (claim_C3_iter_forward_from_head tblTwo (by decide)).1⟩

end LinkedHashtbl

namespace LinkedHashtbl

/-! ### General list lemmas used by the invariant proofs -/

theorem find?_eq_head?_filter (p : α → Bool) :
    ∀ l : List α, l.find? p = (l.filter p).head? := by
  intro l
  induction l with
  | nil => rfl
  | cons a l ih =>
    by_cases h : p a
    · rw [List.find?_cons_of_pos _ h, List.filter_cons_of_pos h, List.head?_cons]
    · rw [List.find?_cons_of_neg _ (by simp [h]), List.filter_cons_of_neg (by simp [h]), ih]

theorem perm_eq_of_length_le_one {l₁ l₂ : List α} (h : List.Perm l₁ l₂)
    (hlen : l₁.length ≤ 1) : l₁ = l₂ := by
  match l₁, hlen with
  | [], _ => rw [(List.Perm.nil_eq h).symm]
  | [a], _ => rw [List.perm_singleton.mp h.symm]

theorem eraseP_eq_filter_not (p : α → Bool) :
    ∀ l : List α, l.countP p ≤ 1 → l.eraseP p = l.filter (fun a => !p a) := by
  intro l
  induction l with
  | nil => intro _; rfl
  | cons a l ih =>
    intro hcnt
    by_cases h : p a
    · rw [List.eraseP_cons_of_pos h, List.filter_cons_of_neg (by simp [h])]
      rw [List.countP_cons_of_pos _ _ h] at hcnt
      have hz : ∀ b ∈ l, ¬ p b = true := List.countP_eq_zero.mp (by omega)
      exact (List.filter_eq_self.mpr (fun b hb => by simp [hz b hb])).symm
    · rw [List.eraseP_cons_of_neg (by simp [h]), List.filter_cons_of_pos (by simp [h])]
      rw [List.countP_cons_of_neg _ _ (by simp [h])] at hcnt
      rw [ih hcnt]

theorem map_eq_self_of_fix (f : α → α) :
    ∀ l : List α, (∀ a ∈ l, f a = a) → l.map f = l := by
  intro l
  induction l with
  | nil => intro _; rfl
  | cons a l ih =>
    intro hfix
    rw [List.map_cons, hfix a (List.mem_cons_self a l), ih (fun b hb => hfix b (List.mem_cons_of_mem a hb))]

theorem setValP_eq_map (p : Entry K V → Bool) (v : V) :
    ∀ l : List (Entry K V), l.countP p ≤ 1 →
      setValP p v l = l.map (fun e => if p e = true then { e with val := v } else e) := by
  intro l
  induction l with
  | nil => intro _; rfl
  | cons a l ih =>
    intro hcnt
    by_cases h : p a
    · rw [List.countP_cons_of_pos _ _ h] at hcnt
      have hz : ∀ b ∈ l, ¬ p b = true := List.countP_eq_zero.mp (by omega)
      rw [setValP, if_pos h, List.map_cons, if_pos h,
        map_eq_self_of_fix _ l (fun b hb => by simp [hz b hb])]
    · rw [List.countP_cons_of_neg _ _ (by simp [h])] at hcnt
      rw [setValP, if_neg (by simp [h]), List.map_cons, if_neg (by simp [h]), ih hcnt]

theorem find?_eq_some_of_unique (p : α → Bool) :
    ∀ (l : List α) (x : α), x ∈ l → p x = true →
      (∀ y ∈ l, p y = true → y = x) → l.find? p = some x := by
  intro l
  induction l with
  | nil => intro x hx; exact absurd hx (List.not_mem_nil x)
  | cons a l ih =>
    intro x hx hpx huniq
    by_cases h : p a
    · rw [List.find?_cons_of_pos _ h, huniq a (List.mem_cons_self a l) h]
    · rw [List.find?_cons_of_neg _ (by simp [h])]
      have hxl : x ∈ l := by
        rcases List.mem_cons.mp hx with rfl | hxl
        · exact absurd hpx (by simp [h])
        · exact hxl
      exact ih x hxl hpx (fun y hy => huniq y (List.mem_cons_of_mem a hy))

theorem perm_cons_eraseP (p : α → Bool) :
    ∀ (l : List α) (x : α), l.find? p = some x → List.Perm l (x :: l.eraseP p) := by
  intro l
  induction l with
  | nil => intro x hx; simp [List.find?] at hx
  | cons a l ih =>
    intro x hx
    by_cases h : p a
    · rw [List.find?_cons_of_pos _ h] at hx
      obtain rfl : a = x := by injection hx
      rw [List.eraseP_cons_of_pos h]
    · rw [List.find?_cons_of_neg _ (by simp [h])] at hx
      rw [List.eraseP_cons_of_neg (by simp [h])]
      exact ((ih x hx).cons a).trans (List.Perm.swap x a _)

theorem getD_set_self (l : List α) (i : Nat) (c d : α) (h : i < l.length) :
    (l.set i c).getD i d = c := by
  rw [List.getD_eq_getElem?_getD, List.getElem?_set_self (by simpa using h)]
  rfl

theorem getD_set_ne (l : List α) (i j : Nat) (c d : α) (h : i ≠ j) :
    (l.set i c).getD j d = l.getD j d := by
  rw [List.getD_eq_getElem?_getD, List.getElem?_set_ne h, ← List.getD_eq_getElem?_getD]

theorem mem_getD_of_mem_flatten {tbl : List (List α)} {e : α} (he : e ∈ tbl.flatten) :
    ∃ j, j < tbl.length ∧ e ∈ tbl.getD j [] := by
  obtain ⟨l, hl, hel⟩ := List.mem_flatten.mp he
  obtain ⟨j, hj, rfl⟩ := List.mem_iff_getElem.mp hl
  refine ⟨j, hj, ?_⟩
  rw [List.getD_eq_getElem?_getD, List.getElem?_eq_getElem hj]
  exact hel

theorem flatten_filter_of_unique_slot (p : α → Bool) :
    ∀ (tbl : List (List α)) (i : Nat), i < tbl.length →
      (∀ j, j < tbl.length → j ≠ i → ∀ e ∈ tbl.getD j [], p e = false) →
      tbl.flatten.filter p = (tbl.getD i []).filter p := by
  intro tbl
  induction tbl with
  | nil => intro i hi; simp at hi
  | cons c rest ih =>
    intro i hi hcond
    match i with
    | 0 =>
      have hrest : ∀ e ∈ rest.flatten, ¬ p e = true := by
        intro e he
        obtain ⟨j, hj, hmem⟩ := mem_getD_of_mem_flatten he
        have := hcond (j + 1) (by simpa using Nat.succ_lt_succ hj) (by omega) e
          (by simpa using hmem)
        simp [this]
      rw [List.flatten_cons, List.filter_append, List.filter_eq_nil_iff.mpr hrest,
        List.append_nil]
      rfl
    | j + 1 =>
      have hc : ∀ e ∈ c, ¬ p e = true := by
        intro e he
        have := hcond 0 (by omega) (by omega) e (by simpa using he)
        simp [this]
      rw [List.flatten_cons, List.filter_append, List.filter_eq_nil_iff.mpr hc,
        List.nil_append]
      have : (c :: rest).getD (j + 1) [] = rest.getD j [] := rfl
      rw [this]
      exact ih j (by simpa using hi) (fun j' hj' hne e he =>
        hcond (j' + 1) (by simpa using Nat.succ_lt_succ hj') (by omega) e (by simpa using he))

theorem flatten_set_filter (q : α → Bool) :
    ∀ (tbl : List (List α)) (i : Nat), i < tbl.length →
      (∀ j, j < tbl.length → j ≠ i → ∀ e ∈ tbl.getD j [], q e = true) →
      (tbl.set i ((tbl.getD i []).filter q)).flatten = tbl.flatten.filter q := by
  intro tbl
  induction tbl with
  | nil => intro i hi; simp at hi
  | cons c rest ih =>
    intro i hi hcond
    match i with
    | 0 =>
      have hrest : rest.flatten.filter q = rest.flatten := by
        refine List.filter_eq_self.mpr ?_
        intro e he
        obtain ⟨j, hj, hmem⟩ := mem_getD_of_mem_flatten he
        exact hcond (j + 1) (by simpa using Nat.succ_lt_succ hj) (by omega) e
          (by simpa using hmem)
      show ((c.filter q) :: rest).flatten = (c ++ rest.flatten).filter q
      rw [List.flatten_cons, List.filter_append, hrest]
    | j + 1 =>
      have hc : c.filter q = c := by
        refine List.filter_eq_self.mpr ?_
        intro e he
        exact hcond 0 (by omega) (by omega) e (by simpa using he)
      show (c :: rest.set j ((rest.getD j []).filter q)).flatten =
        (c ++ rest.flatten).filter q
      rw [List.flatten_cons, List.filter_append, hc,
        ih j (by simpa using hi) (fun j' hj' hne e he =>
          hcond (j' + 1) (by simpa using Nat.succ_lt_succ hj') (by omega) e
            (by simpa using he))]

theorem flatten_set_map (f : α → α) :
    ∀ (tbl : List (List α)) (i : Nat), i < tbl.length →
      (∀ j, j < tbl.length → j ≠ i → ∀ e ∈ tbl.getD j [], f e = e) →
      (tbl.set i ((tbl.getD i []).map f)).flatten = tbl.flatten.map f := by
  intro tbl
  induction tbl with
  | nil => intro i hi; simp at hi
  | cons c rest ih =>
    intro i hi hcond
    match i with
    | 0 =>
      have hrest : rest.flatten.map f = rest.flatten := by
        refine map_eq_self_of_fix f rest.flatten ?_
        intro e he
        obtain ⟨j, hj, hmem⟩ := mem_getD_of_mem_flatten he
        exact hcond (j + 1) (by simpa using Nat.succ_lt_succ hj) (by omega) e
          (by simpa using hmem)
      show ((c.map f) :: rest).flatten = (c ++ rest.flatten).map f
      rw [List.flatten_cons, List.map_append, hrest]
    | j + 1 =>
      have hc : c.map f = c :=
        map_eq_self_of_fix f c (fun e he => hcond 0 (by omega) (by omega) e (by simpa using he))
      show (c :: rest.set j ((rest.getD j []).map f)).flatten = (c ++ rest.flatten).map f
      rw [List.flatten_cons, List.map_append, hc,
        ih j (by simpa using hi) (fun j' hj' hne e he =>
          hcond (j' + 1) (by simpa using Nat.succ_lt_succ hj') (by omega) e
            (by simpa using he))]

theorem flatten_set_cons_perm :
    ∀ (tbl : List (List α)) (i : Nat) (a : α), i < tbl.length →
      List.Perm ((tbl.set i (a :: tbl.getD i [])).flatten) (a :: tbl.flatten) := by
  intro tbl
  induction tbl with
  | nil => intro i a hi; simp at hi
  | cons c rest ih =>
    intro i a hi
    match i with
    | 0 =>
      show List.Perm ((a :: c) :: rest).flatten (a :: (c :: rest).flatten)
      rw [List.flatten_cons, List.flatten_cons, List.cons_append]
    | j + 1 =>
      show List.Perm (c :: rest.set j (a :: rest.getD j [])).flatten (a :: (c :: rest).flatten)
      rw [List.flatten_cons, List.flatten_cons]
      exact (List.Perm.append_left c (ih j a (by simpa using hi))).trans List.perm_middle

end LinkedHashtbl

namespace LinkedHashtbl

/-! ### The structural invariant -/

/-- The key-equality callback agrees with equality of the modelled key
values (what `strcmp`-style or pointer-identity equality provides on
the key domain actually in use). -/
def EqLike (eqf : K → K → Bool) : Prop := ∀ a b : K, eqf a b = true ↔ a = b

/-- The predicate `find_entry` uses when looking up key `k` in `h`. -/
def keyMatch (h : l_hashtbl K V) (k : K) : Entry K V → Bool :=
  matchesKey h.equals_fn (uhash h.hash_fn k) k

/-- Structural well-formedness of a table: the bucket array has
`table_size > 0` slots, `nentries` agrees with the traversal list,
every entry sits in the slot selected by its stored hash, the bucket
chains and the traversal list hold exactly the same entries, stored
hashes are the hashes of the keys, and keys are pairwise distinct.
Every table reachable through the API satisfies this (claim C9). -/
def Wf (h : l_hashtbl K V) : Prop :=
  0 < h.table_size ∧
  h.table.length = h.table_size ∧
  h.nentries = h.all_entries.length ∧
  (∀ i, i < h.table.length → ∀ e ∈ h.table.getD i [], bucketIdx e.hash h.table_size = i) ∧
  List.Perm h.table.flatten h.all_entries ∧
  (∀ e ∈ h.all_entries, e.hash = uhash h.hash_fn e.key) ∧
  List.Pairwise (fun a b : Entry K V => a.key ≠ b.key) h.all_entries

theorem bucketIdx_lt (hv : Nat) {sz : Nat} (hsz : 0 < sz) : bucketIdx hv sz < sz := by
  have h := Nat.and_le_right (n := hv) (m := sz - 1)
  unfold bucketIdx
  omega

theorem matchesKey_iff {eqf : K → K → Bool} (heq : EqLike eqf) (hv : Nat) (k : K)
    (e : Entry K V) : matchesKey eqf hv k e = true ↔ e.hash = hv ∧ e.key = k := by
  unfold matchesKey
  rw [Bool.and_eq_true, beq_iff_eq, heq e.key k]

theorem nodup_entries_of_wf {h : l_hashtbl K V} (hwf : Wf h) : h.all_entries.Nodup := by
  obtain ⟨_, _, _, _, _, _, hnodup⟩ := hwf
  exact hnodup.imp (fun hne he => hne (congrArg Entry.key he))

theorem match_only_in_slot {h : l_hashtbl K V} (hwf : Wf h) (hv : Nat) (k : K) :
    ∀ j, j < h.table.length → j ≠ bucketIdx hv h.table_size →
      ∀ e ∈ h.table.getD j [], matchesKey h.equals_fn hv k e = false := by
  obtain ⟨_, _, _, hplaced, _, _, _⟩ := hwf
  intro j hj hne e he
  by_contra hmatch
  rw [Bool.not_eq_false, matchesKey, Bool.and_eq_true, beq_iff_eq] at hmatch
  exact hne (by rw [← hplaced j hj e he, hmatch.1])

theorem countP_le_one_of_pairwise_keys (p : Entry K V → Bool) (k : K)
    (hp : ∀ e, p e = true → e.key = k) :
    ∀ l : List (Entry K V), List.Pairwise (fun a b => a.key ≠ b.key) l →
      l.countP p ≤ 1 := by
  intro l
  induction l with
  | nil => intro _; simp
  | cons a l ih =>
    intro hpw
    rcases List.pairwise_cons.mp hpw with ⟨hhead, htail⟩
    by_cases h : p a
    · rw [List.countP_cons_of_pos _ _ h]
      have hz : l.countP p = 0 := by
        rw [List.countP_eq_zero]
        intro b hb hpb
        exact hhead b hb (by rw [hp a h, hp b hpb])
      omega
    · rw [List.countP_cons_of_neg _ _ (by simp [h])]
      exact ih htail

theorem countP_keyMatch_le_one {h : l_hashtbl K V} (hwf : Wf h)
    (heq : EqLike h.equals_fn) (k : K) :
    h.all_entries.countP (keyMatch h k) ≤ 1 := by
  obtain ⟨_, _, _, _, _, _, hnodup⟩ := hwf
  exact countP_le_one_of_pairwise_keys _ k
    (fun e he => ((matchesKey_iff heq _ k e).mp he).2) h.all_entries hnodup

theorem chain_filter_eq {h : l_hashtbl K V} (hwf : Wf h) (heq : EqLike h.equals_fn) (k : K) :
    (tbl_entry h (uhash h.hash_fn k)).filter (keyMatch h k) =
      h.all_entries.filter (keyMatch h k) := by
  have hwf' := hwf
  obtain ⟨hpos, hlen, hcnt, hplaced, hperm, hhash, hnodup⟩ := hwf'
  have hidx : bucketIdx (uhash h.hash_fn k) h.table_size < h.table.length := by
    rw [hlen]; exact bucketIdx_lt _ hpos
  have hflat : h.table.flatten.filter (keyMatch h k) =
      (h.table.getD (bucketIdx (uhash h.hash_fn k) h.table_size) []).filter (keyMatch h k) :=
    flatten_filter_of_unique_slot _ h.table _ hidx
      (fun j hj hne e he => match_only_in_slot hwf _ k j hj hne e he)
  have hpf : List.Perm (h.table.flatten.filter (keyMatch h k))
      (h.all_entries.filter (keyMatch h k)) := hperm.filter _
  have hlen1 : (h.all_entries.filter (keyMatch h k)).length ≤ 1 := by
    rw [← List.countP_eq_length_filter]
    exact countP_keyMatch_le_one hwf heq k
  have : h.table.flatten.filter (keyMatch h k) = h.all_entries.filter (keyMatch h k) :=
    perm_eq_of_length_le_one hpf (by rw [hpf.length_eq]; exact hlen1)
  rw [tbl_entry, ← hflat, this]

theorem find_entry_spec {h : l_hashtbl K V} (hwf : Wf h) (heq : EqLike h.equals_fn) (k : K) :
    find_entry h (uhash h.hash_fn k) k = h.all_entries.find? (keyMatch h k) := by
  show (tbl_entry h (uhash h.hash_fn k)).find? (keyMatch h k) =
    h.all_entries.find? (keyMatch h k)
  rw [find?_eq_head?_filter, find?_eq_head?_filter, chain_filter_eq hwf heq k]

/-- The value a lookup returns is determined by the traversal list:
it is the value of the unique entry whose stored hash and key match. -/
theorem lookup_val_spec {h : l_hashtbl K V} (hwf : Wf h) (heq : EqLike h.equals_fn) (k : K) :
    (l_hashtbl_lookup h k).1 = (h.all_entries.find? (keyMatch h k)).map Entry.val := by
  rw [l_hashtbl_lookup]
  show (match find_entry h (uhash h.hash_fn k) k with
    | some entry => (some entry.val, record_access h entry)
    | none => (none, h)).1 = _
  rw [find_entry_spec hwf heq k]
  cases h.all_entries.find? (keyMatch h k) with
  | none => rfl
  | some e => rfl

end LinkedHashtbl

namespace LinkedHashtbl

/-! ### Preservation of the invariant by each operation -/

/-- The configuration fields every hash-table operation leaves
untouched. -/
def SameConfig (h h' : l_hashtbl K V) : Prop :=
  h'.max_load_factor = h.max_load_factor ∧ h'.hash_fn = h.hash_fn ∧
  h'.equals_fn = h.equals_fn ∧ h'.auto_resize = h.auto_resize ∧
  h'.access_order = h.access_order ∧ h'.evictor_fn = h.evictor_fn

theorem sameConfig_refl (h : l_hashtbl K V) : SameConfig h h :=
  ⟨rfl, rfl, rfl, rfl, rfl, rfl⟩

theorem sameConfig_trans {h h' h'' : l_hashtbl K V} (h1 : SameConfig h h')
    (h2 : SameConfig h' h'') : SameConfig h h'' := by
  obtain ⟨a1, b1, c1, d1, e1, f1⟩ := h1
  obtain ⟨a2, b2, c2, d2, e2, f2⟩ := h2
  exact ⟨a2.trans a1, b2.trans b1, c2.trans c1, d2.trans d1, e2.trans e1, f2.trans f1⟩

theorem keyMatch_congr {h h' : l_hashtbl K V} (hsc : SameConfig h h') (k : K) :
    keyMatch h' k = keyMatch h k := by
  unfold keyMatch uhash
  rw [hsc.2.1, hsc.2.2.1]

/-- Unfolded form of `remove_key`. -/
theorem remove_key_eq (h : l_hashtbl K V) (k : K) :
    remove_key h k =
      match (tbl_entry h (uhash h.hash_fn k)).find? (keyMatch h k) with
      | none => (none, h)
      | some entry =>
          (some entry,
            { h with
              table := h.table.set (bucketIdx (uhash h.hash_fn k) h.table_size)
                ((tbl_entry h (uhash h.hash_fn k)).eraseP (keyMatch h k))
              nentries := h.nentries - 1
              all_entries := h.all_entries.eraseP (keyMatch h k) }) := rfl

theorem remove_spec {h : l_hashtbl K V} (hwf : Wf h) (heq : EqLike h.equals_fn) (k : K) :
    Wf (l_hashtbl_remove h k).2 ∧
    (l_hashtbl_remove h k).2.all_entries = h.all_entries.eraseP (keyMatch h k) ∧
    SameConfig h (l_hashtbl_remove h k).2 ∧
    (l_hashtbl_remove h k).2.table_size = h.table_size ∧
    (l_hashtbl_remove h k).2.resize_threshold = h.resize_threshold := by
  have hwf' := hwf
  obtain ⟨hpos, hlen, hcnt, hplaced, hperm, hhash, hnodup⟩ := hwf'
  have hfe : (tbl_entry h (uhash h.hash_fn k)).find? (keyMatch h k) =
      h.all_entries.find? (keyMatch h k) := find_entry_spec hwf heq k
  have hcln : (tbl_entry h (uhash h.hash_fn k)).countP (keyMatch h k) ≤ 1 := by
    rw [List.countP_eq_length_filter, chain_filter_eq hwf heq k,
      ← List.countP_eq_length_filter]
    exact countP_keyMatch_le_one hwf heq k
  have hall1 : h.all_entries.countP (keyMatch h k) ≤ 1 := countP_keyMatch_le_one hwf heq k
  cases hopt : h.all_entries.find? (keyMatch h k) with
  | none =>
    have hnone : ∀ e ∈ h.all_entries, ¬ keyMatch h k e = true := by
      intro e he
      exact List.find?_eq_none.mp hopt e he
    have : l_hashtbl_remove h k = (1, h) := by
      rw [l_hashtbl_remove, remove_key_eq, hfe, hopt]
    rw [this]
    exact ⟨hwf, (List.eraseP_of_forall_not hnone).symm, sameConfig_refl h, rfl, rfl⟩
  | some e =>
    have hrem : l_hashtbl_remove h k =
        (0,
          { h with
            table := h.table.set (bucketIdx (uhash h.hash_fn k) h.table_size)
              ((tbl_entry h (uhash h.hash_fn k)).eraseP (keyMatch h k))
            nentries := h.nentries - 1
            all_entries := h.all_entries.eraseP (keyMatch h k) }) := by
      rw [l_hashtbl_remove, remove_key_eq, hfe, hopt]
    have hmem : e ∈ h.all_entries := List.mem_of_find?_eq_some hopt
    have hpe : keyMatch h k e = true := List.find?_some hopt
    have hidx : bucketIdx (uhash h.hash_fn k) h.table_size < h.table.length := by
      rw [hlen]; exact bucketIdx_lt _ hpos
    have herase_chain : (tbl_entry h (uhash h.hash_fn k)).eraseP (keyMatch h k) =
        (tbl_entry h (uhash h.hash_fn k)).filter (fun a => !keyMatch h k a) :=
      eraseP_eq_filter_not _ _ hcln
    have herase_all : h.all_entries.eraseP (keyMatch h k) =
        h.all_entries.filter (fun a => !keyMatch h k a) :=
      eraseP_eq_filter_not _ _ hall1
    have hflat : (h.table.set (bucketIdx (uhash h.hash_fn k) h.table_size)
          ((tbl_entry h (uhash h.hash_fn k)).filter (fun a => !keyMatch h k a))).flatten =
        h.table.flatten.filter (fun a => !keyMatch h k a) := by
      refine flatten_set_filter _ h.table _ hidx ?_
      intro j hj hne x hx
      have := match_only_in_slot hwf (uhash h.hash_fn k) k j hj hne x hx
      simp [keyMatch] at this ⊢
      simp [this]
    rw [hrem]
    refine ⟨⟨hpos, by simpa using hlen, ?_, ?_, ?_, ?_, ?_⟩, rfl, ⟨rfl, rfl, rfl, rfl, rfl, rfl⟩, rfl, rfl⟩
    · show h.nentries - 1 = (h.all_entries.eraseP (keyMatch h k)).length
      rw [List.length_eraseP_of_mem hmem hpe, hcnt]
    · intro i hi x hx
      rw [List.length_set] at hi
      by_cases hie : i = bucketIdx (uhash h.hash_fn k) h.table_size
      · subst hie
        rw [getD_set_self _ _ _ _ hidx] at hx
        have hsub : x ∈ tbl_entry h (uhash h.hash_fn k) :=
          (List.eraseP_sublist _).subset hx
        exact hplaced _ hi x hsub
      · rw [getD_set_ne _ _ _ _ _ (fun hh => hie hh.symm)] at hx
        exact hplaced i hi x hx
    · show List.Perm _ (h.all_entries.eraseP (keyMatch h k))
      rw [herase_chain, herase_all, hflat]
      exact hperm.filter _
    · intro x hx
      have hsub : x ∈ h.all_entries := (List.eraseP_sublist _).subset hx
      exact hhash x hsub
    · exact hnodup.sublist (List.eraseP_sublist _)

theorem lookup_spec {h : l_hashtbl K V} (hwf : Wf h) (heq : EqLike h.equals_fn) (k : K) :
    Wf (l_hashtbl_lookup h k).2 ∧
    List.Perm (l_hashtbl_lookup h k).2.all_entries h.all_entries ∧
    SameConfig h (l_hashtbl_lookup h k).2 ∧
    (l_hashtbl_lookup h k).2.table = h.table ∧
    (l_hashtbl_lookup h k).2.nentries = h.nentries := by
  have hwf' := hwf
  obtain ⟨hpos, hlen, hcnt, hplaced, hperm, hhash, hnodup⟩ := hwf'
  cases hopt : h.all_entries.find? (keyMatch h k) with
  | none =>
    have hres : l_hashtbl_lookup h k = (none, h) := by
      show (match find_entry h (uhash h.hash_fn k) k with
        | some entry => (some entry.val, record_access h entry)
        | none => (none, h)) = (none, h)
      rw [find_entry_spec hwf heq k, hopt]
    rw [hres]
    exact ⟨hwf, List.Perm.refl _, sameConfig_refl h, rfl, rfl⟩
  | some e =>
    have hres : l_hashtbl_lookup h k = (some e.val, record_access h e) := by
      show (match find_entry h (uhash h.hash_fn k) k with
        | some entry => (some entry.val, record_access h entry)
        | none => (none, h)) = _
      rw [find_entry_spec hwf heq k, hopt]
    have hpe : keyMatch h k e = true := List.find?_some hopt
    obtain ⟨hehash, hekey⟩ := (matchesKey_iff heq _ k e).mp hpe
    rw [hres]
    by_cases hao : h.access_order
    · have hra : record_access h e =
          { h with all_entries := e :: h.all_entries.eraseP (keyMatch h k) } := by
        unfold record_access
        rw [if_pos hao, hehash, hekey]
        rfl
      show Wf (record_access h e) ∧ List.Perm (record_access h e).all_entries h.all_entries ∧
        SameConfig h (record_access h e) ∧ (record_access h e).table = h.table ∧
        (record_access h e).nentries = h.nentries
      rw [hra]
      have hperm2 : List.Perm h.all_entries (e :: h.all_entries.eraseP (keyMatch h k)) :=
        perm_cons_eraseP _ _ e hopt
      refine ⟨⟨hpos, hlen, ?_, hplaced, ?_, ?_, ?_⟩, hperm2.symm,
        ⟨rfl, rfl, rfl, rfl, rfl, rfl⟩, rfl, rfl⟩
      · show h.nentries = (e :: h.all_entries.eraseP (keyMatch h k)).length
        rw [hcnt, hperm2.length_eq]
      · exact hperm.trans hperm2
      · intro x hx
        exact hhash x (hperm2.symm.subset hx)
      · exact (hperm2.pairwise_iff (fun hab hba => hab hba.symm)).mp hnodup
    · have hra : record_access h e = h := by
        unfold record_access
        rw [if_neg hao]
      show Wf (record_access h e) ∧ List.Perm (record_access h e).all_entries h.all_entries ∧
        SameConfig h (record_access h e) ∧ (record_access h e).table = h.table ∧
        (record_access h e).nentries = h.nentries
      rw [hra]
      exact ⟨hwf, List.Perm.refl _, sameConfig_refl h, rfl, rfl⟩

theorem getD_replicate_nil (sz i : Nat) :
    (List.replicate sz ([] : List α)).getD i [] = [] := by
  rw [List.getD_eq_getElem?_getD, List.getElem?_replicate]
  by_cases hi : i < sz <;> simp [hi]

theorem flatten_replicate_nil (sz : Nat) :
    (List.replicate sz ([] : List α)).flatten = [] := by
  rw [List.flatten_eq_nil_iff]
  intro l hl
  exact (List.eq_of_mem_replicate hl)

theorem clear_spec {h : l_hashtbl K V} (hwf : Wf h) :
    Wf (l_hashtbl_clear h) ∧ (l_hashtbl_clear h).all_entries = [] ∧
    l_hashtbl_count (l_hashtbl_clear h) = 0 ∧ SameConfig h (l_hashtbl_clear h) := by
  obtain ⟨hpos, hlen, hcnt, hplaced, hperm, hhash, hnodup⟩ := hwf
  refine ⟨⟨hpos, by simp [l_hashtbl_clear], by simp [l_hashtbl_clear, hcnt], ?_, ?_, ?_, ?_⟩,
    rfl, by simp [l_hashtbl_count, l_hashtbl_clear, hcnt], ⟨rfl, rfl, rfl, rfl, rfl, rfl⟩⟩
  · intro i hi e he
    rw [show (l_hashtbl_clear h).table = List.replicate h.table_size [] from rfl,
      getD_replicate_nil] at he
    exact absurd he (List.not_mem_nil e)
  · show List.Perm (List.replicate h.table_size []).flatten []
    rw [flatten_replicate_nil]
  · intro e he
    exact absurd he (List.not_mem_nil e)
  · exact List.Pairwise.nil

end LinkedHashtbl

namespace LinkedHashtbl

/-- One iteration of the transfer loop in `l_hashtbl_resize`. -/
def transfer_step (sz : Nat) (tbl : List (List (Entry K V))) (e : Entry K V) :
    List (List (Entry K V)) :=
  tbl.set (bucketIdx e.hash sz) (e :: tbl.getD (bucketIdx e.hash sz) [])

theorem transfer_all_eq_foldl (entries : List (Entry K V)) (sz : Nat) :
    transfer_all entries sz = entries.foldl (transfer_step sz) (List.replicate sz []) := rfl

theorem transfer_loop_spec {sz : Nat} (hsz : 0 < sz) :
    ∀ (l : List (Entry K V)) (t : List (List (Entry K V))),
      t.length = sz →
      (∀ i, i < sz → ∀ e ∈ t.getD i [], bucketIdx e.hash sz = i) →
      (l.foldl (transfer_step sz) t).length = sz ∧
      (∀ i, i < sz → ∀ e ∈ (l.foldl (transfer_step sz) t).getD i [],
        bucketIdx e.hash sz = i) ∧
      List.Perm (l.foldl (transfer_step sz) t).flatten (l ++ t.flatten) := by
  intro l
  induction l with
  | nil =>
    intro t hlen hplaced
    exact ⟨hlen, hplaced, by rw [List.foldl_nil, List.nil_append]⟩
  | cons e rest ih =>
    intro t hlen hplaced
    have hidx : bucketIdx e.hash sz < sz := bucketIdx_lt _ hsz
    have hidxt : bucketIdx e.hash sz < t.length := by omega
    have hstep_len : (transfer_step sz t e).length = sz := by
      rw [transfer_step, List.length_set, hlen]
    have hstep_placed : ∀ i, i < sz → ∀ x ∈ (transfer_step sz t e).getD i [],
        bucketIdx x.hash sz = i := by
      intro i hi x hx
      by_cases hie : i = bucketIdx e.hash sz
      · subst hie
        rw [transfer_step, getD_set_self _ _ _ _ hidxt] at hx
        rcases List.mem_cons.mp hx with rfl | hx'
        · rfl
        · exact hplaced _ hi x hx'
      · rw [transfer_step, getD_set_ne _ _ _ _ _ (fun hh => hie hh.symm)] at hx
        exact hplaced i hi x hx
    have hstep_perm : List.Perm (transfer_step sz t e).flatten (e :: t.flatten) :=
      flatten_set_cons_perm t _ e hidxt
    obtain ⟨h1, h2, h3⟩ := ih (transfer_step sz t e) hstep_len hstep_placed
    refine ⟨h1, h2, ?_⟩
    rw [List.foldl_cons]
    refine h3.trans ?_
    refine (List.Perm.append_left rest hstep_perm).trans ?_
    exact List.perm_middle

theorem resize_spec {h : l_hashtbl K V} (hwf : Wf h) (cap : Int) (alloc : List Bool) :
    Wf (l_hashtbl_resize h cap alloc).2.1 ∧
    (l_hashtbl_resize h cap alloc).2.1.all_entries = h.all_entries ∧
    (l_hashtbl_resize h cap alloc).2.1.nentries = h.nentries ∧
    SameConfig h (l_hashtbl_resize h cap alloc).2.1 := by
  have hwf' := hwf
  obtain ⟨hpos, hlen, hcnt, hplaced, hperm, hhash, hnodup⟩ := hwf'
  by_cases hc : resize_capacity cap < (h.table_size : Int) ∨
      resize_capacity cap = (h.table_size : Int)
  · have : l_hashtbl_resize h cap alloc = (0, h, alloc) := by
      rw [l_hashtbl_resize, if_pos hc]
    rw [this]
    exact ⟨hwf, rfl, rfl, sameConfig_refl h⟩
  · rcases halloc : allocPop alloc with ⟨ok, alloc'⟩
    cases ok with
    | false =>
      have : l_hashtbl_resize h cap alloc = (1, h, alloc') := by
        rw [l_hashtbl_resize, if_neg hc, halloc]
        rfl
      rw [this]
      exact ⟨hwf, rfl, rfl, sameConfig_refl h⟩
    | true =>
      have hres : l_hashtbl_resize h cap alloc =
          (0,
            { h with
              table := transfer_all h.all_entries (resize_capacity cap).toNat
              table_size := (resize_capacity cap).toNat
              resize_threshold :=
                resize_threshold (resize_capacity cap) h.max_load_factor },
            alloc') := by
        rw [l_hashtbl_resize, if_neg hc, halloc]
        rfl
      have hszpos : 0 < (resize_capacity cap).toNat := by
        have := resize_capacity_pos cap
        omega
      obtain ⟨t1, t2, t3⟩ := transfer_loop_spec hszpos h.all_entries
        (List.replicate (resize_capacity cap).toNat [])
        (by rw [List.length_replicate])
        (by
          intro i hi e he
          rw [getD_replicate_nil] at he
          exact absurd he (List.not_mem_nil e))
      rw [hres]
      refine ⟨⟨hszpos, ?_, hcnt, ?_, ?_, hhash, hnodup⟩, rfl, rfl,
        ⟨rfl, rfl, rfl, rfl, rfl, rfl⟩⟩
      · show (h.all_entries.foldl (transfer_step (resize_capacity cap).toNat)
            (List.replicate (resize_capacity cap).toNat [])).length =
          (resize_capacity cap).toNat
        exact t1
      · intro i hi x hx
        have hi' : i < (h.all_entries.foldl (transfer_step (resize_capacity cap).toNat)
            (List.replicate (resize_capacity cap).toNat [])).length := hi
        rw [t1] at hi'
        exact t2 i hi' x hx
      · show List.Perm (h.all_entries.foldl (transfer_step (resize_capacity cap).toNat)
            (List.replicate (resize_capacity cap).toNat [])).flatten h.all_entries
        refine t3.trans ?_
        rw [flatten_replicate_nil, List.append_nil]

end LinkedHashtbl

namespace LinkedHashtbl

theorem eraseP_getLast_of_unique (l : List (Entry K V)) (hne : l ≠ [])
    (hnd : List.Pairwise (fun a b : Entry K V => a.key ≠ b.key) l)
    (p : Entry K V → Bool)
    (hpl : p (l.getLast hne) = true)
    (hkey : ∀ e ∈ l, p e = true → e.key = (l.getLast hne).key) :
    l.eraseP p = l.dropLast := by
  have hdec : l.dropLast ++ [l.getLast hne] = l := List.dropLast_append_getLast hne
  have hnomatch : ∀ e ∈ l.dropLast, ¬ p e = true := by
    intro e he hpe
    have hkeyeq : e.key = (l.getLast hne).key :=
      hkey e (by rw [← hdec]; exact List.mem_append_left _ he) hpe
    have hpw : List.Pairwise (fun a b : Entry K V => a.key ≠ b.key)
        (l.dropLast ++ [l.getLast hne]) := by rw [hdec]; exact hnd
    exact (List.pairwise_append.mp hpw).2.2 e he (l.getLast hne) (by simp) hkeyeq
  have h1 : l.eraseP p = (l.dropLast ++ [l.getLast hne]).eraseP p := by rw [hdec]
  rw [h1, List.eraseP_append_right _ hnomatch, List.eraseP_cons_of_pos hpl,
    List.append_nil]

/-- The best-effort auto-resize tail of `l_hashtbl_insert` leaves the
traversal list, the count and the configuration untouched. -/
theorem insert_finish_spec (h2 : l_hashtbl K V) (alloc1 : List Bool) (hwf2 : Wf h2) :
    Wf (if h2.auto_resize then
          if h2.resize_threshold ≤ (h2.nentries : Int) then
            (0, (l_hashtbl_resize h2 (2 * (h2.table_size : Int)) alloc1).2.1,
              (l_hashtbl_resize h2 (2 * (h2.table_size : Int)) alloc1).2.2)
          else ((0 : Nat), h2, alloc1)
        else ((0 : Nat), h2, alloc1)).2.1 ∧
    (if h2.auto_resize then
          if h2.resize_threshold ≤ (h2.nentries : Int) then
            (0, (l_hashtbl_resize h2 (2 * (h2.table_size : Int)) alloc1).2.1,
              (l_hashtbl_resize h2 (2 * (h2.table_size : Int)) alloc1).2.2)
          else ((0 : Nat), h2, alloc1)
        else ((0 : Nat), h2, alloc1)).2.1.all_entries = h2.all_entries ∧
    (if h2.auto_resize then
          if h2.resize_threshold ≤ (h2.nentries : Int) then
            (0, (l_hashtbl_resize h2 (2 * (h2.table_size : Int)) alloc1).2.1,
              (l_hashtbl_resize h2 (2 * (h2.table_size : Int)) alloc1).2.2)
          else ((0 : Nat), h2, alloc1)
        else ((0 : Nat), h2, alloc1)).1 = 0 ∧
    SameConfig h2 (if h2.auto_resize then
          if h2.resize_threshold ≤ (h2.nentries : Int) then
            (0, (l_hashtbl_resize h2 (2 * (h2.table_size : Int)) alloc1).2.1,
              (l_hashtbl_resize h2 (2 * (h2.table_size : Int)) alloc1).2.2)
          else ((0 : Nat), h2, alloc1)
        else ((0 : Nat), h2, alloc1)).2.1 := by
  by_cases har : h2.auto_resize
  · rw [if_pos har]
    by_cases hth : h2.resize_threshold ≤ (h2.nentries : Int)
    · rw [if_pos hth]
      obtain ⟨w, a, n, c⟩ := resize_spec hwf2 (2 * (h2.table_size : Int)) alloc1
      exact ⟨w, a, rfl, c⟩
    · rw [if_neg hth]
      exact ⟨hwf2, rfl, rfl, sameConfig_refl h2⟩
  · rw [if_neg har]
    exact ⟨hwf2, rfl, rfl, sameConfig_refl h2⟩

end LinkedHashtbl

namespace LinkedHashtbl

/-- Value replacement preserves the hash of an entry. -/
theorem upd_hash (p : Entry K V → Bool) (v : V) (x : Entry K V) :
    (if p x = true then { x with val := v } else x).hash = x.hash := by
  by_cases hp : p x <;> simp [hp]

theorem upd_key (p : Entry K V → Bool) (v : V) (x : Entry K V) :
    (if p x = true then { x with val := v } else x).key = x.key := by
  by_cases hp : p x <;> simp [hp]

/-- The eviction step of a fresh-key insert: when the evictor fires,
the traversal-list tail (the eldest entry) is removed via
`l_hashtbl_remove` on its key, which on a well-formed table drops
exactly the last traversal-list element. -/
theorem evict_step_spec (h1 : l_hashtbl K V) (hwf1 : Wf h1) (heq1 : EqLike h1.equals_fn) :
    Wf (if h1.evictor_fn h1.nentries then
          (match h1.all_entries.getLast? with
           | some eldest => (l_hashtbl_remove h1 eldest.key).2
           | none => h1)
        else h1) ∧
    SameConfig h1 (if h1.evictor_fn h1.nentries then
          (match h1.all_entries.getLast? with
           | some eldest => (l_hashtbl_remove h1 eldest.key).2
           | none => h1)
        else h1) ∧
    (if h1.evictor_fn h1.nentries then
          (match h1.all_entries.getLast? with
           | some eldest => (l_hashtbl_remove h1 eldest.key).2
           | none => h1)
        else h1).all_entries =
      (if h1.evictor_fn h1.nentries = true then h1.all_entries.dropLast
       else h1.all_entries) := by
  by_cases hev : h1.evictor_fn h1.nentries = true
  · rw [if_pos hev, if_pos hev]
    cases hle : h1.all_entries.getLast? with
    | none =>
      have hnil : h1.all_entries = [] := by
        cases hl : h1.all_entries with
        | nil => rfl
        | cons a l =>
          rw [hl] at hle
          rw [List.getLast?_eq_getLast (a :: l) (by simp)] at hle
          cases hle
      exact ⟨hwf1, sameConfig_refl h1, by rw [hnil]; rfl⟩
    | some eldest =>
      have hne : h1.all_entries ≠ [] := by
        intro hnil
        rw [hnil] at hle
        cases hle
      have heldest : eldest = h1.all_entries.getLast hne := by
        have := (List.getLast?_eq_getLast h1.all_entries hne).symm.trans hle
        injection this with hh
        exact hh.symm
      have hwfc := hwf1
      obtain ⟨hpos1, hlen1, hcnt1, hplaced1, hperm1, hhash1, hnodup1⟩ := hwfc
      obtain ⟨wr, ar, cr, tr, rr⟩ := remove_spec hwf1 heq1 eldest.key
      have hmem : eldest ∈ h1.all_entries := by
        rw [heldest]; exact List.getLast_mem hne
      have hpl : keyMatch h1 eldest.key eldest = true := by
        rw [show keyMatch h1 eldest.key eldest =
          (eldest.hash == uhash h1.hash_fn eldest.key &&
            h1.equals_fn eldest.key eldest.key) from rfl]
        rw [Bool.and_eq_true, beq_iff_eq]
        exact ⟨hhash1 eldest hmem, (heq1 _ _).mpr rfl⟩
      have herase : h1.all_entries.eraseP (keyMatch h1 eldest.key) =
          h1.all_entries.dropLast := by
        refine eraseP_getLast_of_unique h1.all_entries hne hnodup1 _ ?_ ?_
        · rw [← heldest]; exact hpl
        · intro x hx hxm
          rw [← heldest]
          exact ((matchesKey_iff heq1 _ eldest.key x).mp hxm).2
      exact ⟨wr, cr, by rw [ar, herase]⟩
  · rw [if_neg hev, if_neg hev]
    exact ⟨hwf1, sameConfig_refl h1, rfl⟩

/-- Full behavioural specification of `l_hashtbl_insert` on
well-formed tables: it preserves the invariant and the configuration,
replaces in place on an existing key, prepends (and possibly evicts
the traversal-list tail) on a fresh key, and is the identity on the
table when the entry allocation fails. -/
theorem insert_spec {h : l_hashtbl K V} (hwf : Wf h) (heq : EqLike h.equals_fn)
    (k : K) (v : V) (alloc : List Bool) :
    Wf (l_hashtbl_insert h k v alloc).2.1 ∧
    SameConfig h (l_hashtbl_insert h k v alloc).2.1 ∧
    (∀ e, h.all_entries.find? (keyMatch h k) = some e →
      (l_hashtbl_insert h k v alloc).2.1.all_entries =
        h.all_entries.map
          (fun x => if keyMatch h k x = true then { x with val := v } else x) ∧
      (l_hashtbl_insert h k v alloc).2.1.nentries = h.nentries ∧
      (l_hashtbl_insert h k v alloc).1 = 0) ∧
    (h.all_entries.find? (keyMatch h k) = none → (allocPop alloc).1 = true →
      (l_hashtbl_insert h k v alloc).2.1.all_entries =
        (if h.evictor_fn (h.nentries + 1) = true
         then (Entry.mk k v (uhash h.hash_fn k) :: h.all_entries).dropLast
         else Entry.mk k v (uhash h.hash_fn k) :: h.all_entries) ∧
      (l_hashtbl_insert h k v alloc).1 = 0) ∧
    (h.all_entries.find? (keyMatch h k) = none → (allocPop alloc).1 = false →
      (l_hashtbl_insert h k v alloc).2.1 = h) := by
  have hwf' := hwf
  obtain ⟨hpos, hlen, hcnt, hplaced, hperm, hhash, hnodup⟩ := hwf'
  have hfe := find_entry_spec hwf heq k
  have hkm : matchesKey h.equals_fn (uhash h.hash_fn k) k = keyMatch h k := rfl
  have hidx : bucketIdx (uhash h.hash_fn k) h.table_size < h.table.length := by
    rw [hlen]; exact bucketIdx_lt _ hpos
  cases hopt : h.all_entries.find? (keyMatch h k) with
  | some e =>
    have hall1 : h.all_entries.countP (keyMatch h k) ≤ 1 := countP_keyMatch_le_one hwf heq k
    have hcln : (h.table.getD (bucketIdx (uhash h.hash_fn k) h.table_size) []).countP
        (keyMatch h k) ≤ 1 := by
      show (tbl_entry h (uhash h.hash_fn k)).countP (keyMatch h k) ≤ 1
      rw [List.countP_eq_length_filter, chain_filter_eq hwf heq k,
        ← List.countP_eq_length_filter]
      exact hall1
    have hmapall : setValP (keyMatch h k) v h.all_entries =
        h.all_entries.map
          (fun x => if keyMatch h k x = true then { x with val := v } else x) :=
      setValP_eq_map _ _ _ hall1
    have hmapchain : setValP (keyMatch h k) v
          (h.table.getD (bucketIdx (uhash h.hash_fn k) h.table_size) []) =
        (h.table.getD (bucketIdx (uhash h.hash_fn k) h.table_size) []).map
          (fun x => if keyMatch h k x = true then { x with val := v } else x) :=
      setValP_eq_map _ _ _ hcln
    simp only [l_hashtbl_insert, hfe, hopt, hkm]
    refine ⟨⟨hpos, by rw [List.length_set]; exact hlen, ?_, ?_, ?_, ?_, ?_⟩,
      ⟨rfl, rfl, rfl, rfl, rfl, rfl⟩, ?_, ?_, ?_⟩
    · show h.nentries = (setValP (keyMatch h k) v h.all_entries).length
      rw [hmapall, List.length_map, hcnt]
    · intro i hi x hx
      rw [List.length_set] at hi
      by_cases hie : i = bucketIdx (uhash h.hash_fn k) h.table_size
      · subst hie
        rw [getD_set_self _ _ _ _ hidx, hmapchain] at hx
        obtain ⟨y, hy, rfl⟩ := List.mem_map.mp hx
        rw [upd_hash]
        exact hplaced _ hi y hy
      · rw [getD_set_ne _ _ _ _ _ (fun hh => hie hh.symm)] at hx
        exact hplaced i hi x hx
    · show List.Perm _ (setValP (keyMatch h k) v h.all_entries)
      rw [hmapall, hmapchain]
      have hfix : ∀ j, j < h.table.length →
          j ≠ bucketIdx (uhash h.hash_fn k) h.table_size →
          ∀ x ∈ h.table.getD j [],
            (if keyMatch h k x = true then { x with val := v } else x) = x := by
        intro j hj hne x hx
        have hm := match_only_in_slot hwf (uhash h.hash_fn k) k j hj hne x hx
        rw [hkm] at hm
        rw [if_neg (by simp [hm])]
      rw [flatten_set_map _ h.table _ hidx hfix]
      exact hperm.map _
    · intro x hx
      have hx' : x ∈ setValP (keyMatch h k) v h.all_entries := hx
      rw [hmapall] at hx'
      obtain ⟨y, hy, rfl⟩ := List.mem_map.mp hx'
      rw [upd_hash, upd_key]
      exact hhash y hy
    · show List.Pairwise _ (setValP (keyMatch h k) v h.all_entries)
      rw [hmapall, List.pairwise_map]
      refine hnodup.imp ?_
      intro a b hab
      rw [upd_key, upd_key]
      exact hab
    · intro e' he'
      exact ⟨by rw [hmapall], by trivial, by trivial⟩
    · intro habs
      simp at habs
    · intro habs
      simp at habs
  | none =>
    have hfreshkey : ∀ b ∈ h.all_entries, b.key ≠ k := by
      intro b hb hbk
      have hm : keyMatch h k b = true := by
        rw [← hkm, matchesKey, Bool.and_eq_true, beq_iff_eq]
        exact ⟨by rw [hhash b hb, hbk], (heq b.key k).mpr hbk⟩
      exact absurd hm (by simpa using List.find?_eq_none.mp hopt b hb)
    have hwf1 : Wf ({ h with
        table := h.table.set (bucketIdx (uhash h.hash_fn k) h.table_size)
          (Entry.mk k v (uhash h.hash_fn k) ::
            h.table.getD (bucketIdx (uhash h.hash_fn k) h.table_size) [])
        all_entries := Entry.mk k v (uhash h.hash_fn k) :: h.all_entries
        nentries := h.nentries + 1 } : l_hashtbl K V) := by
      refine ⟨hpos, by rw [List.length_set]; exact hlen, ?_, ?_, ?_, ?_, ?_⟩
      · show h.nentries + 1 = (Entry.mk k v (uhash h.hash_fn k) :: h.all_entries).length
        rw [List.length_cons, hcnt]
      · intro i hi x hx
        rw [List.length_set] at hi
        by_cases hie : i = bucketIdx (uhash h.hash_fn k) h.table_size
        · subst hie
          rw [getD_set_self _ _ _ _ hidx] at hx
          rcases List.mem_cons.mp hx with rfl | hx'
          · rfl
          · exact hplaced _ hi x hx'
        · rw [getD_set_ne _ _ _ _ _ (fun hh => hie hh.symm)] at hx
          exact hplaced i hi x hx
      · show List.Perm _ (Entry.mk k v (uhash h.hash_fn k) :: h.all_entries)
        exact (flatten_set_cons_perm h.table _ _ hidx).trans (hperm.cons _)
      · intro x hx
        rcases List.mem_cons.mp hx with rfl | hx'
        · rfl
        · exact hhash x hx'
      · refine List.pairwise_cons.mpr ⟨?_, hnodup⟩
        intro b hb hbk
        exact hfreshkey b hb hbk.symm
    have hremFact : ∀ eldest : Entry K V,
        (Entry.mk k v (uhash h.hash_fn k) :: h.all_entries).getLast? = some eldest →
        Wf (l_hashtbl_remove ({ h with
          table := h.table.set (bucketIdx (uhash h.hash_fn k) h.table_size)
            (Entry.mk k v (uhash h.hash_fn k) ::
              h.table.getD (bucketIdx (uhash h.hash_fn k) h.table_size) [])
          all_entries := Entry.mk k v (uhash h.hash_fn k) :: h.all_entries
          nentries := h.nentries + 1 } : l_hashtbl K V) eldest.key).2 ∧
        SameConfig h (l_hashtbl_remove ({ h with
          table := h.table.set (bucketIdx (uhash h.hash_fn k) h.table_size)
            (Entry.mk k v (uhash h.hash_fn k) ::
              h.table.getD (bucketIdx (uhash h.hash_fn k) h.table_size) [])
          all_entries := Entry.mk k v (uhash h.hash_fn k) :: h.all_entries
          nentries := h.nentries + 1 } : l_hashtbl K V) eldest.key).2 ∧
        (l_hashtbl_remove ({ h with
          table := h.table.set (bucketIdx (uhash h.hash_fn k) h.table_size)
            (Entry.mk k v (uhash h.hash_fn k) ::
              h.table.getD (bucketIdx (uhash h.hash_fn k) h.table_size) [])
          all_entries := Entry.mk k v (uhash h.hash_fn k) :: h.all_entries
          nentries := h.nentries + 1 } : l_hashtbl K V) eldest.key).2.all_entries =
          (Entry.mk k v (uhash h.hash_fn k) :: h.all_entries).dropLast := by
      intro eldest hle
      have hne : (Entry.mk k v (uhash h.hash_fn k) :: h.all_entries) ≠ [] := by simp
      have heldest : eldest =
          (Entry.mk k v (uhash h.hash_fn k) :: h.all_entries).getLast hne := by
        have := (List.getLast?_eq_getLast _ hne).symm.trans hle
        injection this with hh
        exact hh.symm
      obtain ⟨wr, ar, cr, _, _⟩ := remove_spec hwf1 heq eldest.key
      obtain ⟨_, _, hcnt1, _, _, hhash1, hnodup1⟩ := hwf1
      have hmem : eldest ∈ Entry.mk k v (uhash h.hash_fn k) :: h.all_entries := by
        rw [heldest]; exact List.getLast_mem hne
      have herase : (Entry.mk k v (uhash h.hash_fn k) :: h.all_entries).eraseP
          (keyMatch ({ h with
            table := h.table.set (bucketIdx (uhash h.hash_fn k) h.table_size)
              (Entry.mk k v (uhash h.hash_fn k) ::
                h.table.getD (bucketIdx (uhash h.hash_fn k) h.table_size) [])
            all_entries := Entry.mk k v (uhash h.hash_fn k) :: h.all_entries
            nentries := h.nentries + 1 } : l_hashtbl K V) eldest.key) =
          (Entry.mk k v (uhash h.hash_fn k) :: h.all_entries).dropLast := by
        refine eraseP_getLast_of_unique _ hne hnodup1 _ ?_ ?_
        · rw [← heldest]
          show (eldest.hash == uhash h.hash_fn eldest.key &&
            h.equals_fn eldest.key eldest.key) = true
          rw [Bool.and_eq_true, beq_iff_eq]
          exact ⟨hhash1 eldest hmem, (heq _ _).mpr rfl⟩
        · intro x hx hxm
          rw [← heldest]
          exact ((matchesKey_iff heq _ eldest.key x).mp hxm).2
      refine ⟨wr, sameConfig_trans ⟨rfl, rfl, rfl, rfl, rfl, rfl⟩ cr, ?_⟩
      rw [ar, herase]
    simp only [l_hashtbl_insert, hfe, hopt, hkm]
    rcases halloc : allocPop alloc with ⟨ok, alloc1⟩
    cases ok with
    | false =>
      simp only [Bool.not_false, if_true]
      refine ⟨hwf, sameConfig_refl h, ?_, ?_, ?_⟩
      · intro e habs
        simp at habs
      · intro _ habs
        simp at habs
      · intro _ _
        trivial
    | true =>
      simp only [Bool.not_true, Bool.false_eq_true, if_false]
      have hstep : ∀ h2 : l_hashtbl K V, Wf h2 → SameConfig h h2 →
          Wf (if h2.auto_resize then
                if h2.resize_threshold ≤ (h2.nentries : Int) then
                  (0, (l_hashtbl_resize h2 (2 * (h2.table_size : Int)) alloc1).2.1,
                    (l_hashtbl_resize h2 (2 * (h2.table_size : Int)) alloc1).2.2)
                else ((0 : Nat), h2, alloc1)
              else ((0 : Nat), h2, alloc1)).2.1 ∧
          SameConfig h (if h2.auto_resize then
                if h2.resize_threshold ≤ (h2.nentries : Int) then
                  (0, (l_hashtbl_resize h2 (2 * (h2.table_size : Int)) alloc1).2.1,
                    (l_hashtbl_resize h2 (2 * (h2.table_size : Int)) alloc1).2.2)
                else ((0 : Nat), h2, alloc1)
              else ((0 : Nat), h2, alloc1)).2.1 ∧
          (if h2.auto_resize then
                if h2.resize_threshold ≤ (h2.nentries : Int) then
                  (0, (l_hashtbl_resize h2 (2 * (h2.table_size : Int)) alloc1).2.1,
                    (l_hashtbl_resize h2 (2 * (h2.table_size : Int)) alloc1).2.2)
                else ((0 : Nat), h2, alloc1)
              else ((0 : Nat), h2, alloc1)).2.1.all_entries = h2.all_entries ∧
          (if h2.auto_resize then
                if h2.resize_threshold ≤ (h2.nentries : Int) then
                  (0, (l_hashtbl_resize h2 (2 * (h2.table_size : Int)) alloc1).2.1,
                    (l_hashtbl_resize h2 (2 * (h2.table_size : Int)) alloc1).2.2)
                else ((0 : Nat), h2, alloc1)
              else ((0 : Nat), h2, alloc1)).1 = 0 := by
        intro h2 hwf2 hsc2
        obtain ⟨w, a, st, c⟩ := insert_finish_spec h2 alloc1 hwf2
        exact ⟨w, sameConfig_trans hsc2 c, a, st⟩
      by_cases hev : h.evictor_fn (h.nentries + 1) = true
      · rw [if_pos hev]
        cases hgl : ({ key := k, val := v, hash := uhash h.hash_fn k } ::
            h.all_entries).getLast? with
        | none =>
          rw [List.getLast?_eq_getLast _ (by simp)] at hgl
          simp at hgl
        | some eldest =>
          obtain ⟨wr, scr, ar⟩ := hremFact eldest hgl
          obtain ⟨W, S, A, St⟩ := hstep _ wr scr
          refine ⟨W, S, ?_, ?_, ?_⟩
          · intro e habs
            simp at habs
          · intro _ _
            rw [if_pos hev]
            exact ⟨A.trans ar, St⟩
          · intro _ habs
            simp at habs
      · rw [if_neg hev]
        obtain ⟨W, S, A, St⟩ := hstep _ hwf1 ⟨rfl, rfl, rfl, rfl, rfl, rfl⟩
        refine ⟨W, S, ?_, ?_, ?_⟩
        · intro e habs
          simp at habs
        · intro _ _
          rw [if_neg hev]
          exact ⟨A, St⟩
        · intro _ habs
          simp at habs

end LinkedHashtbl

namespace LinkedHashtbl

/-- Decidability of the structural invariant on concrete tables. -/
instance decidableWf [DecidableEq K] [DecidableEq V] (h : l_hashtbl K V) :
    Decidable (Wf h) := by
  unfold Wf
  infer_instance

/-- `Nat` equality via `==` is an `EqLike` key comparator. -/
theorem eqLike_beq_nat : EqLike (fun a b : Nat => a == b) := fun a b => beq_iff_eq

/-- table `tbl0` with an evict-when-nonempty policy installed. -/
def tblEv : l_hashtbl Nat Nat := { tbl0 with evictor_fn := fun n => decide (0 < n) }

/-- C9 (confirmed): every public operation preserves the structural
invariant `Wf`; on a well-formed table the stored count equals the
traversal-list length and the total number of entries across all
bucket chains, and each entry occurs exactly once in each structure. -/
theorem claim_C9_structural_invariant (h : l_hashtbl K V) (k : K) (v : V) (n : Int)
    (alloc : List Bool) (heq : EqLike h.equals_fn) (hwf : Wf h) :
    Wf (l_hashtbl_insert h k v alloc).2.1 ∧
    Wf (l_hashtbl_remove h k).2 ∧
    Wf (l_hashtbl_clear h) ∧
    Wf (l_hashtbl_resize h n alloc).2.1 ∧
    Wf (l_hashtbl_lookup h k).2 ∧
    l_hashtbl_count h = h.all_entries.length ∧
    l_hashtbl_count h = h.table.flatten.length ∧
    h.all_entries.Nodup ∧
    h.table.flatten.Nodup := by
  obtain ⟨hpos, hlen, hcnt, hplaced, hperm, hhash, hnodup⟩ := hwf
  have hwf' : Wf h := ⟨hpos, hlen, hcnt, hplaced, hperm, hhash, hnodup⟩
  refine ⟨(insert_spec hwf' heq k v alloc).1, (remove_spec hwf' heq k).1,
    (clear_spec hwf').1, (resize_spec hwf' n alloc).1, (lookup_spec hwf' heq k).1,
    hcnt, ?_, nodup_entries_of_wf hwf', ?_⟩
  · exact hcnt.trans hperm.length_eq.symm
  · exact hperm.nodup_iff.mpr (nodup_entries_of_wf hwf')

/-- Witness for C9 at the concrete table `tblTwo`. -/
theorem claim_C9_witness :
    Wf (l_hashtbl_clear tblTwo) ∧
    l_hashtbl_count tblTwo = tblTwo.all_entries.length ∧
    l_hashtbl_count tblTwo = tblTwo.table.flatten.length := by
  have H := claim_C9_structural_invariant tblTwo 1 99 8 [] eqLike_beq_nat (by decide)
  exact ⟨H.2.2.1, H.2.2.2.2.2.1, H.2.2.2.2.2.2.1⟩

/-- C10 (confirmed): if the eviction hook fires at entry count 1 right
after the first insert into an empty table, the just-inserted entry is
itself evicted: the insert still returns 0 and the count drops back to
0 with an empty traversal list. -/
theorem claim_C10_evict_first_insert (h : l_hashtbl K V) (k : K) (v : V)
    (hwf : Wf h) (heq : EqLike h.equals_fn) (hempty : h.all_entries = [])
    (hev : h.evictor_fn 1 = true) :
    (l_hashtbl_insert h k v []).1 = 0 ∧
    l_hashtbl_count (l_hashtbl_insert h k v []).2.1 = 0 ∧
    (l_hashtbl_insert h k v []).2.1.all_entries = [] := by
  have hn0 : h.nentries = 0 := by
    obtain ⟨_, _, hcnt, _, _, _, _⟩ := hwf
    rw [hcnt, hempty]
    rfl
  have hnone : h.all_entries.find? (keyMatch h k) = none := by rw [hempty]; rfl
  obtain ⟨W, _, _, hfresh, _⟩ := insert_spec hwf heq k v []
  obtain ⟨hall, hst⟩ := hfresh hnone rfl
  rw [hempty, hn0] at hall
  have hev' : h.evictor_fn (0 + 1) = true := hev
  rw [if_pos hev'] at hall
  have hall' : (l_hashtbl_insert h k v []).2.1.all_entries = [] := hall
  refine ⟨hst, ?_, hall'⟩
  obtain ⟨_, _, hcnt', _, _, _, _⟩ := W
  show (l_hashtbl_insert h k v []).2.1.nentries = 0
  rw [hcnt', hall']
  rfl

/-- Witness for C10 at the empty table `tblEv`, whose evictor fires
whenever the table is non-empty. -/
theorem claim_C10_witness :
    (l_hashtbl_insert tblEv 7 70 []).1 = 0 ∧
    l_hashtbl_count (l_hashtbl_insert tblEv 7 70 []).2.1 = 0 ∧
    (l_hashtbl_insert tblEv 7 70 []).2.1.all_entries = [] :=
  claim_C10_evict_first_insert tblEv 7 70 (by decide) eqLike_beq_nat (by decide) (by decide)

/-- C8 (confirmed): a successful growing resize leaves the traversal
list identical and every lookup result unchanged. -/
theorem claim_C8_resize_preserves_lookups (h : l_hashtbl K V) (n : Int) (alloc : List Bool)
    (hwf : Wf h) (heq : EqLike h.equals_fn)
    (hgrow : (h.table_size : Int) < n) (hsucc : (l_hashtbl_resize h n alloc).1 = 0) :
    (l_hashtbl_resize h n alloc).2.1.all_entries = h.all_entries ∧
    ∀ k : K, (l_hashtbl_lookup (l_hashtbl_resize h n alloc).2.1 k).1 =
      (l_hashtbl_lookup h k).1 := by
  obtain ⟨W, A, N, C⟩ := resize_spec hwf n alloc
  refine ⟨A, ?_⟩
  intro k
  have heq' : EqLike (l_hashtbl_resize h n alloc).2.1.equals_fn := by
    rw [C.2.2.1]; exact heq
  rw [lookup_val_spec W heq' k, lookup_val_spec hwf heq k, A, keyMatch_congr C k]

/-- Witness for C8: growing `tblTwo` from capacity 4 to 8. -/
theorem claim_C8_witness :
    (tblTwo.table_size : Int) < 8 ∧ (l_hashtbl_resize tblTwo 8 []).1 = 0 ∧
    (l_hashtbl_resize tblTwo 8 []).2.1.all_entries = tblTwo.all_entries ∧
    (l_hashtbl_lookup (l_hashtbl_resize tblTwo 8 []).2.1 1).1 =
      (l_hashtbl_lookup tblTwo 1).1 := by
  have H := claim_C8_resize_preserves_lookups tblTwo 8 [] (by decide) eqLike_beq_nat
    (by decide) (by decide)
  exact ⟨by decide, by decide, H.1, H.2 1⟩

end LinkedHashtbl

namespace LinkedHashtbl

/-- A sequence of `l_hashtbl_insert` calls (with successful
allocation), as quantified over by the specification's sequence
properties. -/
def insert_all (h : l_hashtbl K V) (kvs : List (K × V)) : l_hashtbl K V :=
  kvs.foldl (fun hh kv => (l_hashtbl_insert hh kv.1 kv.2 []).2.1) h

theorem pairwise_fst_unique {l : List (K × V)}
    (hpw : List.Pairwise (fun a b : K × V => a.1 ≠ b.1) l) :
    ∀ x ∈ l, ∀ y ∈ l, x.1 = y.1 → x = y := by
  induction l with
  | nil => intro x hx; exact absurd hx (List.not_mem_nil x)
  | cons a l ih =>
    obtain ⟨hhead, htail⟩ := List.pairwise_cons.mp hpw
    intro x hx y hy hxy
    rcases List.mem_cons.mp hx with rfl | hx' <;> rcases List.mem_cons.mp hy with rfl | hy'
    · rfl
    · exact absurd hxy (hhead y hy')
    · exact absurd hxy.symm (hhead x hx')
    · exact ih htail x hx' y hy' hxy

theorem dropLast_cons_take (a : α) (L : List α) (N : Nat) (hlen : N ≤ L.length) :
    (a :: L.take N).dropLast = (a :: L).take N := by
  cases N with
  | zero => simp
  | succ m =>
    rw [List.take_succ_cons]
    have hlt : (L.take (m + 1)).length = m + 1 := by
      rw [List.length_take]
      omega
    have hne : L.take (m + 1) ≠ [] := List.ne_nil_of_length_pos (by omega)
    rw [List.dropLast_cons_of_ne_nil hne]
    congr 1
    rw [List.dropLast_eq_take, hlt]
    rw [List.take_take]
    congr 1
    omega

/-- Folding fresh-key inserts under a never-firing evictor prepends
the new entries in order. -/
theorem insert_all_fresh_noevict :
    ∀ (kvs : List (K × V)) (h : l_hashtbl K V),
      Wf h → EqLike h.equals_fn →
      (∀ n, h.evictor_fn n = false) →
      (∀ kv ∈ kvs, ∀ b ∈ h.all_entries, b.key ≠ kv.1) →
      List.Pairwise (fun a b : K × V => a.1 ≠ b.1) kvs →
      Wf (insert_all h kvs) ∧
      SameConfig h (insert_all h kvs) ∧
      (insert_all h kvs).all_entries =
        (kvs.map (fun kv => Entry.mk kv.1 kv.2 (uhash h.hash_fn kv.1))).reverse ++
          h.all_entries := by
  intro kvs
  induction kvs with
  | nil =>
    intro h hwf heq hev hdis hpw
    exact ⟨hwf, sameConfig_refl h, by simp [insert_all]⟩
  | cons kv rest ih =>
    intro h hwf heq hev hdis hpw
    have hnone : h.all_entries.find? (keyMatch h kv.1) = none := by
      rw [List.find?_eq_none]
      intro b hb hmb
      exact (hdis kv (List.mem_cons_self kv rest) b hb)
        (((matchesKey_iff heq _ _ b).mp hmb).2)
    obtain ⟨W1, S1, _, hfresh, _⟩ := insert_spec hwf heq kv.1 kv.2 []
    obtain ⟨hall1, _⟩ := hfresh hnone rfl
    rw [if_neg (by rw [hev (h.nentries + 1)]; exact Bool.false_ne_true)] at hall1
    have hstep : insert_all h (kv :: rest) =
        insert_all (l_hashtbl_insert h kv.1 kv.2 []).2.1 rest := rfl
    rw [hstep]
    have heq1 : EqLike (l_hashtbl_insert h kv.1 kv.2 []).2.1.equals_fn := by
      rw [S1.2.2.1]; exact heq
    have hev1 : ∀ n, (l_hashtbl_insert h kv.1 kv.2 []).2.1.evictor_fn n = false := by
      intro n
      rw [S1.2.2.2.2.2]
      exact hev n
    obtain ⟨hhead, htail⟩ := List.pairwise_cons.mp hpw
    have hdis1 : ∀ kv' ∈ rest, ∀ b ∈ (l_hashtbl_insert h kv.1 kv.2 []).2.1.all_entries,
        b.key ≠ kv'.1 := by
      intro kv' hkv' b hb
      rw [hall1] at hb
      rcases List.mem_cons.mp hb with rfl | hb'
      · exact hhead kv' hkv'
      · exact hdis kv' (List.mem_cons_of_mem kv hkv') b hb'
    obtain ⟨W, S, A⟩ := ih (l_hashtbl_insert h kv.1 kv.2 []).2.1 W1 heq1 hev1 hdis1 htail
    refine ⟨W, sameConfig_trans S1 S, ?_⟩
    rw [A, hall1, S1.2.1]
    simp [List.reverse_cons, List.append_assoc]

/-- C1 (confirmed): inserting a sequence of pairwise-distinct keys
into a fresh table under the default never-evict policy yields a count
equal to the number of keys, and each key looks up to its inserted
value. -/
theorem claim_C1_insert_count_lookup (h0 : l_hashtbl K V) (kvs : List (K × V))
    (hwf : Wf h0) (heq : EqLike h0.equals_fn) (hempty : h0.all_entries = [])
    (hev : h0.evictor_fn = remove_eldest)
    (hpw : List.Pairwise (fun a b : K × V => a.1 ≠ b.1) kvs) :
    l_hashtbl_count (insert_all h0 kvs) = kvs.length ∧
    ∀ kv ∈ kvs, (l_hashtbl_lookup (insert_all h0 kvs) kv.1).1 = some kv.2 := by
  obtain ⟨W, S, A⟩ := insert_all_fresh_noevict kvs h0 hwf heq
    (fun n => by rw [hev]; rfl)
    (fun kv _ b hb => by rw [hempty] at hb; exact absurd hb (List.not_mem_nil b)) hpw
  rw [hempty, List.append_nil] at A
  constructor
  · show (insert_all h0 kvs).nentries = kvs.length
    obtain ⟨_, _, hcntT, _, _, _, _⟩ := W
    rw [hcntT, A, List.length_reverse, List.length_map]
  · intro kv hkv
    have heqT : EqLike (insert_all h0 kvs).equals_fn := by rw [S.2.2.1]; exact heq
    rw [lookup_val_spec W heqT kv.1, keyMatch_congr S kv.1, A]
    have hfind : ((kvs.map (fun kv => Entry.mk kv.1 kv.2 (uhash h0.hash_fn kv.1))).reverse).find?
        (keyMatch h0 kv.1) = some (Entry.mk kv.1 kv.2 (uhash h0.hash_fn kv.1)) := by
      refine find?_eq_some_of_unique _ _ _ ?_ ?_ ?_
      · rw [List.mem_reverse]
        exact List.mem_map.mpr ⟨kv, hkv, rfl⟩
      · show (uhash h0.hash_fn kv.1 == uhash h0.hash_fn kv.1 &&
          h0.equals_fn kv.1 kv.1) = true
        rw [Bool.and_eq_true, beq_iff_eq]
        exact ⟨rfl, (heq _ _).mpr rfl⟩
      · intro y hy hpy
        rw [List.mem_reverse] at hy
        obtain ⟨kv', hkv', rfl⟩ := List.mem_map.mp hy
        obtain ⟨_, hkey⟩ := (matchesKey_iff heq _ kv.1 _).mp hpy
        have : kv' = kv := pairwise_fst_unique hpw kv' hkv' kv hkv hkey
        rw [this]
    rw [hfind]
    rfl

/-- Witness for C1: keys 1 and 2 inserted into the empty `tbl0`. -/
theorem claim_C1_witness :
    l_hashtbl_count (insert_all tbl0 [(1, 10), (2, 20)]) = 2 ∧
    (l_hashtbl_lookup (insert_all tbl0 [(1, 10), (2, 20)]) 1).1 = some 10 := by
  have H := claim_C1_insert_count_lookup tbl0 [(1, 10), (2, 20)] (by decide)
    eqLike_beq_nat rfl rfl (by decide)
  exact ⟨H.1, H.2 (1, 10) (by decide)⟩

end LinkedHashtbl

namespace LinkedHashtbl

/-- Folding fresh-key inserts under the evict-when-above-N policy
keeps exactly the N most recently inserted entries, newest first. -/
theorem insert_all_evict_bound (N : Nat) :
    ∀ (rest : List (K × V)) (h : l_hashtbl K V) (pf : List (K × V)),
      Wf h → EqLike h.equals_fn →
      (∀ n, h.evictor_fn n = decide (N < n)) →
      h.all_entries =
        ((pf.map (fun kv => Entry.mk kv.1 kv.2 (uhash h.hash_fn kv.1))).reverse).take N →
      List.Pairwise (fun a b : K × V => a.1 ≠ b.1) (pf ++ rest) →
      Wf (insert_all h rest) ∧ SameConfig h (insert_all h rest) ∧
      (insert_all h rest).all_entries =
        (((pf ++ rest).map
          (fun kv => Entry.mk kv.1 kv.2 (uhash h.hash_fn kv.1))).reverse).take N := by
  intro rest
  induction rest with
  | nil =>
    intro h pf hwf heq hev hall hpw
    refine ⟨hwf, sameConfig_refl h, ?_⟩
    rw [List.append_nil]
    exact hall
  | cons kv rest' ih =>
    intro h pf hwf heq hev hall hpw
    have hpwsplit := List.pairwise_append.mp hpw
    have hfreshpf : ∀ kv' ∈ pf, kv'.1 ≠ kv.1 := by
      intro kv' hkv'
      exact hpwsplit.2.2 kv' hkv' kv (List.mem_cons_self kv rest')
    have hdis : ∀ b ∈ h.all_entries, b.key ≠ kv.1 := by
      intro b hb
      rw [hall] at hb
      have hb2 := List.take_subset N _ hb
      rw [List.mem_reverse] at hb2
      obtain ⟨kv', hkv', rfl⟩ := List.mem_map.mp hb2
      exact hfreshpf kv' hkv'
    have hnone : h.all_entries.find? (keyMatch h kv.1) = none := by
      rw [List.find?_eq_none]
      intro b hb hmb
      exact (hdis b hb) (((matchesKey_iff heq _ _ b).mp hmb).2)
    obtain ⟨W1, S1, _, hfresh, _⟩ := insert_spec hwf heq kv.1 kv.2 []
    obtain ⟨hall1, _⟩ := hfresh hnone rfl
    rw [hev (h.nentries + 1)] at hall1
    have hcntlen : h.nentries = h.all_entries.length := by
      obtain ⟨_, _, hcnt, _, _, _, _⟩ := hwf
      exact hcnt
    have hLlen : ((pf.map (fun kv => Entry.mk kv.1 kv.2 (uhash h.hash_fn kv.1))).reverse).length
        = pf.length := by
      rw [List.length_reverse, List.length_map]
    have hlen_all : h.all_entries.length = min N pf.length := by
      rw [hall, List.length_take, hLlen]
    have hall1' : (l_hashtbl_insert h kv.1 kv.2 []).2.1.all_entries =
        (((pf ++ [kv]).map
          (fun kv => Entry.mk kv.1 kv.2 (uhash h.hash_fn kv.1))).reverse).take N := by
      rw [hall1]
      have hmapsplit : (((pf ++ [kv]).map
          (fun kv => Entry.mk kv.1 kv.2 (uhash h.hash_fn kv.1))).reverse) =
        Entry.mk kv.1 kv.2 (uhash h.hash_fn kv.1) ::
          ((pf.map (fun kv => Entry.mk kv.1 kv.2 (uhash h.hash_fn kv.1))).reverse) := by
        simp
      rw [hmapsplit]
      by_cases hNle : N ≤ pf.length
      · have hdec : decide (N < h.nentries + 1) = true := by
          rw [hcntlen, hlen_all]
          simp
          omega
        rw [if_pos hdec, hall]
        exact dropLast_cons_take _ _ N (by rw [hLlen]; exact hNle)
      · have hdec : decide (N < h.nentries + 1) = false := by
          rw [hcntlen, hlen_all]
          simp
          omega
        rw [if_neg (by rw [hdec]; exact Bool.false_ne_true), hall]
        rw [List.take_of_length_le (by rw [hLlen]; omega),
          List.take_of_length_le (by rw [List.length_cons, hLlen]; omega)]
    have hstep : insert_all h (kv :: rest') =
        insert_all (l_hashtbl_insert h kv.1 kv.2 []).2.1 rest' := rfl
    rw [hstep]
    have heq1 : EqLike (l_hashtbl_insert h kv.1 kv.2 []).2.1.equals_fn := by
      rw [S1.2.2.1]; exact heq
    have hev1 : ∀ n, (l_hashtbl_insert h kv.1 kv.2 []).2.1.evictor_fn n =
        decide (N < n) := by
      intro n
      rw [S1.2.2.2.2.2]
      exact hev n
    have hall1'' : (l_hashtbl_insert h kv.1 kv.2 []).2.1.all_entries =
        (((pf ++ [kv]).map (fun p => Entry.mk p.1 p.2
          (uhash (l_hashtbl_insert h kv.1 kv.2 []).2.1.hash_fn p.1))).reverse).take N := by
      rw [S1.2.1]
      exact hall1'
    have hpw1 : List.Pairwise (fun a b : K × V => a.1 ≠ b.1) ((pf ++ [kv]) ++ rest') := by
      rw [List.append_assoc, List.singleton_append]
      exact hpw
    obtain ⟨W, S, A⟩ := ih (l_hashtbl_insert h kv.1 kv.2 []).2.1 (pf ++ [kv]) W1 heq1
      hev1 hall1'' hpw1
    refine ⟨W, sameConfig_trans S1 S, ?_⟩
    rw [A, S1.2.1, List.append_assoc, List.singleton_append]

/-- Folding any sequence of inserts — repeated keys included — under
the evict-when-above-N policy keeps the entry count at or below N:
a value-replacing insert leaves the count unchanged, and a fresh
insert that pushes the count past N immediately evicts. -/
theorem insert_all_count_le (N : Nat) :
    ∀ (kvs : List (K × V)) (h : l_hashtbl K V),
      Wf h → EqLike h.equals_fn →
      (∀ n, h.evictor_fn n = decide (N < n)) →
      h.nentries ≤ N →
      Wf (insert_all h kvs) ∧ SameConfig h (insert_all h kvs) ∧
      (insert_all h kvs).nentries ≤ N := by
  intro kvs
  induction kvs with
  | nil =>
    intro h hwf heq hev hle
    exact ⟨hwf, sameConfig_refl h, hle⟩
  | cons kv rest ih =>
    intro h hwf heq hev hle
    obtain ⟨W1, S1, hrep, hfresh, _⟩ := insert_spec hwf heq kv.1 kv.2 []
    have hcnt1 : (l_hashtbl_insert h kv.1 kv.2 []).2.1.nentries ≤ N := by
      cases hopt : h.all_entries.find? (keyMatch h kv.1) with
      | some e =>
        obtain ⟨_, hn, _⟩ := hrep e hopt
        rw [hn]
        exact hle
      | none =>
        obtain ⟨hall1, _⟩ := hfresh hopt rfl
        have hlen0 : h.all_entries.length = h.nentries := by
          obtain ⟨_, _, hc, _, _, _, _⟩ := hwf
          rw [hc]
        have hlen1 : (l_hashtbl_insert h kv.1 kv.2 []).2.1.nentries =
            (l_hashtbl_insert h kv.1 kv.2 []).2.1.all_entries.length := by
          obtain ⟨_, _, hc, _, _, _, _⟩ := W1
          exact hc
        rw [hev (h.nentries + 1)] at hall1
        rw [hlen1, hall1]
        by_cases hNlt : N < h.nentries + 1
        · rw [if_pos (decide_eq_true hNlt), List.length_dropLast, List.length_cons, hlen0]
          omega
        · rw [if_neg (by rw [decide_eq_false hNlt]; exact Bool.false_ne_true),
            List.length_cons, hlen0]
          omega
    have heq1 : EqLike (l_hashtbl_insert h kv.1 kv.2 []).2.1.equals_fn := by
      rw [S1.2.2.1]
      exact heq
    have hev1 : ∀ n, (l_hashtbl_insert h kv.1 kv.2 []).2.1.evictor_fn n =
        decide (N < n) := by
      intro n
      rw [S1.2.2.2.2.2]
      exact hev n
    obtain ⟨W, S, A⟩ := ih (l_hashtbl_insert h kv.1 kv.2 []).2.1 W1 heq1 hev1 hcnt1
    exact ⟨W, sameConfig_trans S1 S, A⟩

/-- C2 (confirmed): with an eviction policy that evicts exactly when
the count exceeds N, (i) after every sequence of inserts — repeated
keys included — the count never exceeds N; (ii) when a fresh-key
insert triggers the evictor, the removed entry is exactly the tail of
the traversal list at eviction time (the new entry already sits at the
head), namely the pre-insert `getLast` — the least-recently-inserted
entry present in insertion-order mode; and (iii) in access-order mode
a lookup hit moves the accessed entry to the head of the traversal
list, so the tail evicted in (ii) is the least-recently-used entry. -/
theorem claim_C2_bounded_eviction (h0 : l_hashtbl K V) (N : Nat)
    (hwf : Wf h0) (heq : EqLike h0.equals_fn)
    (hev : ∀ n, h0.evictor_fn n = decide (N < n))
    (hcnt : l_hashtbl_count h0 ≤ N) :
    (∀ kvs : List (K × V), l_hashtbl_count (insert_all h0 kvs) ≤ N) ∧
    (∀ k v e, h0.all_entries.find? (keyMatch h0 k) = none →
      h0.evictor_fn (h0.nentries + 1) = true →
      h0.all_entries.getLast? = some e →
      (l_hashtbl_insert h0 k v []).2.1.all_entries =
        Entry.mk k v (uhash h0.hash_fn k) :: h0.all_entries.dropLast ∧
      h0.all_entries = h0.all_entries.dropLast ++ [e]) ∧
    (∀ k e, h0.access_order = true →
      h0.all_entries.find? (keyMatch h0 k) = some e →
      (l_hashtbl_lookup h0 k).2.all_entries =
        e :: h0.all_entries.eraseP (matchesKey h0.equals_fn e.hash e.key)) := by
  refine ⟨?_, ?_, ?_⟩
  · intro kvs
    exact (insert_all_count_le N kvs h0 hwf heq hev hcnt).2.2
  · intro k v e hopt hfire hgl
    have hne : h0.all_entries ≠ [] := by
      intro habs
      rw [habs] at hgl
      exact Option.noConfusion hgl
    obtain ⟨_, _, _, hfresh, _⟩ := insert_spec hwf heq k v []
    obtain ⟨hall1, _⟩ := hfresh hopt rfl
    rw [if_pos hfire] at hall1
    have hsplit : h0.all_entries.dropLast ++ [h0.all_entries.getLast hne] =
        h0.all_entries := List.dropLast_append_getLast hne
    have hee : e = h0.all_entries.getLast hne := by
      have := List.getLast?_eq_getLast h0.all_entries hne
      rw [hgl] at this
      exact Option.some.inj this
    constructor
    · rw [hall1, List.dropLast_cons_of_ne_nil hne]
    · rw [hee]
      exact hsplit.symm
  · intro k e hao hopt
    have hres : l_hashtbl_lookup h0 k = (some e.val, record_access h0 e) := by
      show (match find_entry h0 (uhash h0.hash_fn k) k with
        | some entry => (some entry.val, record_access h0 entry)
        | none => (none, h0)) = _
      rw [find_entry_spec hwf heq k, hopt]
    rw [hres]
    show (record_access h0 e).all_entries = _
    unfold record_access
    rw [if_pos hao]

/-- Witness for C2: N = 3 and a six-insert sequence with repeated keys
(100 and 200 are each inserted twice); the final count stays at or
below 3. -/
theorem claim_C2_witness :
    l_hashtbl_count (insert_all { tbl0 with evictor_fn := fun n => decide (3 < n) }
      [(100, 1), (200, 2), (100, 3), (300, 4), (400, 5), (200, 6)]) ≤ 3 := by
  exact (claim_C2_bounded_eviction
    { tbl0 with evictor_fn := fun n => decide (3 < n) } 3
    (by decide) eqLike_beq_nat (fun n => rfl) (by decide)).1
    [(100, 1), (200, 2), (100, 3), (300, 4), (400, 5), (200, 6)]


end LinkedHashtbl
